import Mathlib

/-!
STC `clist`: circular singly-linked list (src/stc/clist.h).


A shallow embedding of the macro-generated list operations of `clist.h` over an
explicit heap of nodes, followed by theorems about them.

* node addresses are natural numbers, `0` is `NULL`;
* every `p->next` / `p->value` access is checked: touching `NULL`, a freed node or an
  address that was never allocated is `Err.fault`;
* loops whose trip count depends on the heap take a `fuel` bound; running out of it
  is `Err.fuel`, a result different from a fault;
* the `int` counters of `_clist_mergesort` (`insize`, `psize`, `qsize`, `nmerges`)
  are natural numbers kept within `INT_MAX`: every `++` and `insize *= 2` goes through
  `intOf`, and a result above `INT_MAX` is `Err.overflow`; no counter is decremented
  at zero. The theorems about `sort` are stated for rings of at most `INT_MAX` nodes.
-/

namespace STC

/-! ## Heap of nodes -/

/-- Abnormal outcomes of a run: an invalid node access, the `fuel` bound of a loop
reached before the loop ended, or an `int` computation whose result does not fit the
type `int` (signed overflow, undefined behaviour in C). -/
inductive Err where
  | fault
  | fuel
  | overflow
  deriving DecidableEq, Repr

/-- The largest value of the type `int` (32 bits). -/
def INT_MAX : Nat := 2147483647

/-- The result of an `int` computation whose mathematical value is `n`: no value above
`INT_MAX` exists. The counters of `_clist_mergesort` are never negative, so only the
upper end of the range matters. -/
def intOf (n : Nat) : Except Err Nat :=
  if n ≤ INT_MAX then pure n else .error .overflow

/-- The node store. `next a` and `value a` are the two fields of
`struct clistnode_tag` at address `a`; addresses `1 .. brk` have been handed out by
`c_new`, `freed a` says that `free` was called on `a`; `log` records, oldest first, the
values on which `valueDestroy` was invoked. -/
structure Heap (V : Type) where
  next : Nat → Nat
  value : Nat → V
  freed : Nat → Bool
  brk : Nat
  log : List V

/-- The heap before any allocation. -/
def Heap.empty {V : Type} (d : V) : Heap V :=
  { next := fun _ => 0, value := fun _ => d, freed := fun _ => false, brk := 0, log := [] }

/-- Address `p` may be dereferenced: not `NULL`, allocated and not freed. -/
def Heap.valid {V : Type} (h : Heap V) (p : Nat) : Prop :=
  p ≠ 0 ∧ p ≤ h.brk ∧ h.freed p = false

instance {V : Type} (h : Heap V) (p : Nat) : Decidable (h.valid p) :=
  inferInstanceAs (Decidable (p ≠ 0 ∧ p ≤ h.brk ∧ h.freed p = false))

/-- Read `p->next`. -/
def Heap.rdNext {V : Type} (h : Heap V) (p : Nat) : Except Err Nat :=
  if h.valid p then .ok (h.next p) else .error .fault

/-- Read `p->value`. -/
def Heap.rdValue {V : Type} (h : Heap V) (p : Nat) : Except Err V :=
  if h.valid p then .ok (h.value p) else .error .fault

/-- Write `p->next = v`. -/
def Heap.wrNext {V : Type} (h : Heap V) (p v : Nat) : Except Err (Heap V) :=
  if h.valid p then .ok { h with next := Function.update h.next p v } else .error .fault

/-- Write `p->value = v`. -/
def Heap.wrValue {V : Type} (h : Heap V) (p : Nat) (v : V) : Except Err (Heap V) :=
  if h.valid p then .ok { h with value := Function.update h.value p v } else .error .fault

/-- Modelled from the spec: `c_new` (cdefs.h is not among the sources) allocates one
node and, per section 7, either succeeds or terminates the program; here it always
succeeds and returns an address never handed out before. The fields of the new node
are unspecified until written. -/
def Heap.alloc {V : Type} (h : Heap V) : Nat × Heap V :=
  (h.brk + 1,
   { h with brk := h.brk + 1, freed := Function.update h.freed (h.brk + 1) false })

/-- The call `free(p)`. -/
def Heap.free {V : Type} (h : Heap V) (p : Nat) : Except Err (Heap V) :=
  if h.valid p then .ok { h with freed := Function.update h.freed p true }
  else .error .fault

/-- The call `valueDestroy(&p->value)`: the destructor is an instantiation parameter;
its observable effect is that it was invoked on that value. -/
def Heap.destroyValue {V : Type} (h : Heap V) (p : Nat) : Except Err (Heap V) :=
  if h.valid p then .ok { h with log := h.log ++ [h.value p] } else .error .fault

/-! ## List operations (`implement_clist_6`)

A list handle `clist_tag` is its single field `last`; the operations take the current
`last` and return the new one next to the new heap. An iterator is its `item`; the
anchor `_last` points at the handle, so `*it._last` is the `last` argument. -/

/-- The value `clist_init`. -/
def clist_init : Nat := 0

/-- The function `clist_tag_begin`. -/
def clist_begin {V : Type} (h : Heap V) (last : Nat) : Except Err Nat :=
  if last ≠ 0 then h.rdNext last else .ok 0

/-- The function `clist_tag_next`: `it.item == *it._last ? NULL : it.item->next`. -/
def clist_next {V : Type} (h : Heap V) (last item : Nat) : Except Err Nat :=
  if item = last then .ok 0 else h.rdNext item

/-- The function `clist_tag_last`. -/
def clist_last (last : Nat) : Nat := last

/-- The macro `_clist_insertAfter(self, tag, node, val)`; returns the heap and `entry`. -/
def _clist_insertAfter {V : Type} (h : Heap V) (last node : Nat) (val : V) :
    Except Err (Heap V × Nat) := do
  let (entry, h) := h.alloc
  let next ← if last ≠ 0 then h.rdNext node else pure entry
  let h ← h.wrValue entry val
  let h ← h.wrNext entry next
  let h ← if node ≠ 0 then h.wrNext node entry else pure h
  pure (h, entry)

/-- The macro `_clist_eraseAfter(self, tag, node, valueDestroy)`; returns the heap and
the new `self->last`. -/
def _clist_eraseAfter {V : Type} (h : Heap V) (last node : Nat) :
    Except Err (Heap V × Nat) := do
  let del ← h.rdNext node
  let next ← h.rdNext del
  let h ← h.wrNext node next
  let last := if del = next then 0 else if last = del then node else last
  let h ← h.destroyValue del
  let h ← h.free del
  pure (h, last)

/-- The function `clist_tag_pushBack`. -/
def clist_pushBack {V : Type} (h : Heap V) (last : Nat) (value : V) :
    Except Err (Heap V × Nat) := do
  let (h, entry) ← _clist_insertAfter h last last value
  pure (h, entry)

/-- The function `clist_tag_pushFront`. -/
def clist_pushFront {V : Type} (h : Heap V) (last : Nat) (value : V) :
    Except Err (Heap V × Nat) := do
  let (h, entry) ← _clist_insertAfter h last last value
  pure (h, if last = 0 then entry else last)

/-- The function `clist_tag_pushN`: `pushBack` of `in[0] .. in[size-1]`. -/
def clist_pushN {V : Type} (h : Heap V) (last : Nat) : List V → Except Err (Heap V × Nat)
  | [] => pure (h, last)
  | v :: vs => do
    let (h, last) ← clist_pushBack h last v
    clist_pushN h last vs

/-- The function `clist_tag_popFront`. -/
def clist_popFront {V : Type} (h : Heap V) (last : Nat) : Except Err (Heap V × Nat) :=
  _clist_eraseAfter h last last

/-- The function `clist_tag_insertAfter`. -/
def clist_insertAfter {V : Type} (h : Heap V) (last pos : Nat) (value : V) :
    Except Err (Heap V × Nat) := do
  let (h, entry) ← _clist_insertAfter h last pos value
  pure (h, if last = 0 ∨ pos = last then entry else last)

/-- The function `clist_tag_eraseAfter`. -/
def clist_eraseAfter {V : Type} (h : Heap V) (last pos : Nat) : Except Err (Heap V × Nat) :=
  _clist_eraseAfter h last pos

/-- The function `clist_tag_destroy`: `while (self->last) popFront(self)`. -/
def clist_destroy {V : Type} : Nat → Heap V → Nat → Except Err (Heap V × Nat)
  | 0, _, _ => .error .fuel
  | fuel + 1, h, last =>
    if last ≠ 0 then do
      let (h, last) ← clist_popFront h last
      clist_destroy fuel h last
    else pure (h, last)

/-- The function `_clist_tag_splice`, for two different handles `self` and `other`;
returns the heap, `self->last` and `other->last`. -/
def _clist_splice {V : Type} (h : Heap V) (selfLast pos otherLast : Nat) (bottom : Bool) :
    Except Err (Heap V × Nat × Nat) :=
  if pos = 0 then
    pure (h, otherLast, 0)
  else if otherLast ≠ 0 then do
    let next ← h.rdNext pos
    let ofront ← h.rdNext otherLast
    let h ← h.wrNext pos ofront
    let h ← h.wrNext otherLast next
    pure (h, if bottom ∧ pos = selfLast then otherLast else selfLast, 0)
  else
    pure (h, selfLast, 0)

/-- The function `clist_tag_spliceFront`. -/
def clist_spliceFront {V : Type} (h : Heap V) (selfLast otherLast : Nat) :
    Except Err (Heap V × Nat × Nat) :=
  _clist_splice h selfLast (clist_last selfLast) otherLast false

/-- The function `clist_tag_spliceAfter`. -/
def clist_spliceAfter {V : Type} (h : Heap V) (selfLast pos otherLast : Nat) :
    Except Err (Heap V × Nat × Nat) :=
  _clist_splice h selfLast pos otherLast true

/-- Modelled from the spec: `c_foreach (i, clist_tag, *self)` (cdefs.h is not among the
sources) is the traversal `for (i = begin(self); i.item; i = next(i))` of section 3.
This is the loop of `clist_tag_findBefore` from the state `(prev, i)`; the result is
`prev.item` of the returned iterator. -/
def findBeforeLoop {V R : Type} (valueGetRaw : V → R) (valueCompareRaw : R → R → Int)
    (h : Heap V) (last : Nat) (val : R) : Nat → Nat → Nat → Except Err Nat
  | 0, _, _ => .error .fuel
  | fuel + 1, prev, i =>
    if i ≠ 0 then do
      let v ← h.rdValue i
      if valueCompareRaw (valueGetRaw v) val = 0 then pure prev
      else do
        let i' ← clist_next h last i
        findBeforeLoop valueGetRaw valueCompareRaw h last val fuel i i'
    else pure 0

/-- The function `clist_tag_findBefore`. -/
def clist_findBefore {V R : Type} (valueGetRaw : V → R) (valueCompareRaw : R → R → Int)
    (fuel : Nat) (h : Heap V) (last : Nat) (val : R) : Except Err Nat := do
  let i ← clist_begin h last
  findBeforeLoop valueGetRaw valueCompareRaw h last val fuel last i

/-- The function `clist_tag_find`: the value found, or `none` for `NULL`. -/
def clist_find {V R : Type} (valueGetRaw : V → R) (valueCompareRaw : R → R → Int)
    (fuel : Nat) (h : Heap V) (last : Nat) (val : R) : Except Err (Option V) := do
  let it ← clist_findBefore valueGetRaw valueCompareRaw fuel h last val
  if it ≠ 0 then do
    let n ← h.rdNext it
    let v ← h.rdValue n
    pure (some v)
  else pure none

/-- The function `clist_tag_remove`; returns the heap, `self->last` and `it.item`. -/
def clist_remove {V R : Type} (valueGetRaw : V → R) (valueCompareRaw : R → R → Int)
    (fuel : Nat) (h : Heap V) (last : Nat) (val : R) : Except Err (Heap V × Nat × Nat) := do
  let it ← clist_findBefore valueGetRaw valueCompareRaw fuel h last val
  if it ≠ 0 then do
    let (h, last) ← clist_eraseAfter h last it
    pure (h, last, it)
  else pure (h, last, it)

/-- The function `clist_tag_sortCompare` on two node addresses. -/
def clist_sortCompare {V R : Type} (valueGetRaw : V → R) (valueCompareRaw : R → R → Int)
    (h : Heap V) (x y : Nat) : Except Err Int := do
  let a ← h.rdValue x
  let b ← h.rdValue y
  pure (valueCompareRaw (valueGetRaw a) (valueGetRaw b))

/-! ## The merge sort engine `_clist_mergesort` -/

/-- The local variables of `_clist_mergesort` that live across the loops of one pass,
with the heap. -/
structure MergeVars (V : Type) where
  h : Heap V
  p : Nat
  q : Nat
  list : Nat
  tail : Nat
  psize : Nat
  qsize : Nat
  nmerges : Nat

/-- The loop `for (i = 0; i < insize; ++i) { ++psize; q = ...; if (!q) break; }`, with
`k = insize - i` iterations left; returns `(psize, q)`. The counter `i` stays below
`insize`, itself an `int`, so `++i` cannot overflow. -/
def countRun {V : Type} (h : Heap V) (oldhead : Nat) : Nat → Nat → Nat → Except Err (Nat × Nat)
  | 0, psize, q => pure (psize, q)
  | k + 1, psize, q => do
    let psize ← intOf (psize + 1)
    let nx ← h.rdNext q
    let q' := if nx = oldhead then 0 else nx
    if q' = 0 then pure (psize, 0) else countRun h oldhead k psize q'

/-- The statements `e = p; p = p->next; --psize; if (p == oldhead) p = NULL;`. The loop
runs them with `psize > 0` only, so `--psize` stays in range. -/
def takeP {V : Type} (oldhead : Nat) (s : MergeVars V) : Except Err (Nat × MergeVars V) := do
  let nx ← s.h.rdNext s.p
  pure (s.p, { s with p := if nx = oldhead then 0 else nx, psize := s.psize - 1 })

/-- The statements `e = q; q = q->next; --qsize; if (q == oldhead) q = NULL;`. The loop
runs them with `qsize > 0` only, so `--qsize` stays in range. -/
def takeQ {V : Type} (oldhead : Nat) (s : MergeVars V) : Except Err (Nat × MergeVars V) := do
  let nx ← s.h.rdNext s.q
  pure (s.q, { s with q := if nx = oldhead then 0 else nx, qsize := s.qsize - 1 })

/-- The statements `if (tail) tail->next = e; else list = e; tail = e;`. -/
def emit {V : Type} (s : MergeVars V) (e : Nat) : Except Err (MergeVars V) :=
  if s.tail ≠ 0 then do
    let h ← s.h.wrNext s.tail e
    pure { s with h := h, tail := e }
  else
    pure { s with list := e, tail := e }

/-- The body of the loop `while (psize > 0 || (qsize > 0 && q))`. -/
def mergeStep {V : Type} (cmp : Heap V → Nat → Nat → Except Err Int) (oldhead : Nat)
    (s : MergeVars V) : Except Err (MergeVars V) := do
  let (e, s) ←
    if s.psize = 0 then takeQ oldhead s
    else if s.qsize = 0 ∨ s.q = 0 then takeP oldhead s
    else do
      let c ← cmp s.h s.p s.q
      if c ≤ 0 then takeP oldhead s else takeQ oldhead s
  emit s e

/-- The loop `while (psize > 0 || (qsize > 0 && q))`; every iteration decrements
`psize` or `qsize`, and `n` bounds the iterations left (it is started at
`psize + qsize`). -/
def mergeLoop {V : Type} (cmp : Heap V → Nat → Nat → Except Err Int) (oldhead : Nat) :
    Nat → MergeVars V → Except Err (MergeVars V)
  | 0, s => if 0 < s.psize ∨ (0 < s.qsize ∧ s.q ≠ 0) then .error .fuel else pure s
  | n + 1, s =>
    if 0 < s.psize ∨ (0 < s.qsize ∧ s.q ≠ 0) then do
      let s ← mergeStep cmp oldhead s
      mergeLoop cmp oldhead n s
    else pure s

/-- The loop `while (p)` of one pass. -/
def passLoop {V : Type} (cmp : Heap V → Nat → Nat → Except Err Int) (insize oldhead : Nat) :
    Nat → MergeVars V → Except Err (MergeVars V)
  | 0, _ => .error .fuel
  | fuel + 1, s =>
    if s.p ≠ 0 then do
      let nmerges ← intOf (s.nmerges + 1)
      let s := { s with nmerges := nmerges, q := s.p, psize := 0 }
      let (psize, q) ← countRun s.h oldhead insize s.psize s.q
      let s := { s with psize := psize, q := q, qsize := insize }
      let s ← mergeLoop cmp oldhead (s.psize + s.qsize) s
      passLoop cmp insize oldhead fuel { s with p := s.q }
    else pure s

/-- The loop `while (1)` of `_clist_mergesort`: `k` bounds the passes, `fuel` the
merges of one pass. At the start of a pass `q`, `psize` and `qsize` hold dead values.
The statement `insize *= 2` is an `int` multiplication. -/
def sortLoop {V : Type} (cmp : Heap V → Nat → Nat → Except Err Int) (fuel : Nat) :
    Nat → Heap V → Nat → Nat → Except Err (Heap V × Nat)
  | 0, _, _, _ => .error .fuel
  | k + 1, h, list, insize => do
    let s ← passLoop cmp insize list fuel
      { h := h, p := list, q := 0, list := 0, tail := 0, psize := 0, qsize := 0, nmerges := 0 }
    let h ← s.h.wrNext s.tail s.list
    if s.nmerges ≤ 1 then pure (h, s.tail)
    else do
      let insize ← intOf (insize * 2)
      sortLoop cmp fuel k h s.list insize

/-- The function `_clist_mergesort`; returns the heap and the returned `tail`. -/
def _clist_mergesort {V : Type} (cmp : Heap V → Nat → Nat → Except Err Int) (fuel : Nat)
    (h : Heap V) (list : Nat) : Except Err (Heap V × Nat) :=
  if list = 0 then pure (h, 0) else sortLoop cmp fuel fuel h list 1

/-- The function `clist_tag_sort`: `self->last->next` is evaluated before the call. -/
def clist_sort {V R : Type} (valueGetRaw : V → R) (valueCompareRaw : R → R → Int)
    (fuel : Nat) (h : Heap V) (last : Nat) : Except Err (Heap V × Nat) := do
  let front ← h.rdNext last
  _clist_mergesort (clist_sortCompare valueGetRaw valueCompareRaw) fuel h front

/-! ## Traversal -/

/-- Modelled from the spec: `c_foreach (i, clist_tag, list)` (cdefs.h is not among the
sources) is the traversal `for (i = begin(&list); i.item; i = next(i))` of section 3.
This is that loop from the iterator `item`, collecting the nodes it visits. -/
def traverseLoop {V : Type} (h : Heap V) (last : Nat) : Nat → Nat → Except Err (List Nat)
  | 0, _ => .error .fuel
  | fuel + 1, item =>
    if item ≠ 0 then do
      let item' ← clist_next h last item
      let rest ← traverseLoop h last fuel item'
      pure (item :: rest)
    else pure []

/-- The nodes of the list, front to back, as the traversal from `begin` visits them. -/
def clist_nodes {V : Type} (fuel : Nat) (h : Heap V) (last : Nat) : Except Err (List Nat) := do
  let b ← clist_begin h last
  traverseLoop h last fuel b

/-- Read the values of the nodes `ns`, in order. -/
def readValues {V : Type} (h : Heap V) : List Nat → Except Err (List V)
  | [] => pure []
  | x :: xs => do
    let v ← h.rdValue x
    let vs ← readValues h xs
    pure (v :: vs)

/-- The values of the list, front to back. -/
def clist_toList {V : Type} (fuel : Nat) (h : Heap V) (last : Nat) : Except Err (List V) := do
  let ns ← clist_nodes fuel h last
  readValues h ns

/-! ## Operation sequences and the reference array -/

/-- The operations of a test sequence; `eraseAfter i` erases after the node at traversal
index `i`. -/
inductive Op (V : Type) where
  | pushBack (v : V)
  | pushFront (v : V)
  | popFront
  | eraseAfter (i : Nat)

/-- The iterator reached from `item` by `i` calls of `clist_tag_next`. -/
def nodeAt {V : Type} (h : Heap V) (last : Nat) : Nat → Nat → Except Err Nat
  | 0, item => pure item
  | i + 1, item => do
    let item' ← clist_next h last item
    nodeAt h last i item'

/-- One operation on the list: the position of `eraseAfter i` is the iterator reached
from `begin` by `i` steps. -/
def applyOp {V : Type} (h : Heap V) (last : Nat) : Op V → Except Err (Heap V × Nat)
  | .pushBack v => clist_pushBack h last v
  | .pushFront v => clist_pushFront h last v
  | .popFront => clist_popFront h last
  | .eraseAfter i => do
    let b ← clist_begin h last
    let pos ← nodeAt h last i b
    clist_eraseAfter h last pos

/-- A sequence of operations on the list, left to right. -/
def runOps {V : Type} : Heap V → Nat → List (Op V) → Except Err (Heap V × Nat)
  | h, last, [] => pure (h, last)
  | h, last, op :: ops => do
    let (h, last) ← applyOp h last op
    runOps h last ops

/-- One operation on the reference array: `push_back` appends, `push_front` prepends,
`pop_front` drops index `0` and `erase_after` at index `i` drops index `(i + 1) mod n`;
`none` when the operation is outside its precondition (`pop_front` of an empty array, an
index that is no position of the array). -/
def refStep {V : Type} (a : List V) : Op V → Option (List V)
  | .pushBack v => some (a ++ [v])
  | .pushFront v => some (v :: a)
  | .popFront => if a.length = 0 then none else some (a.eraseIdx 0)
  | .eraseAfter i => if i < a.length then some (a.eraseIdx ((i + 1) % a.length)) else none

/-- A sequence of operations on the reference array. -/
def refOps {V : Type} : List V → List (Op V) → Option (List V)
  | a, [] => some a
  | a, op :: ops => (refStep a op).bind (fun a' => refOps a' ops)

/-! ## Well-formed lists -/

/-- The list handle `last` of heap `h` is a well-formed ring whose front-to-back
traversal is the node list `L`: `L` is empty exactly when `last` is `NULL`; otherwise
the nodes of `L` are distinct and valid, each links to the one after it, `last` is the
final node and links back to the first. -/
def Ring {V : Type} (h : Heap V) (last : Nat) (L : List Nat) : Prop :=
  L.Nodup ∧ (∀ x ∈ L, h.valid x) ∧ L.Chain' (fun x y => h.next x = y) ∧
    L.getLast? = (if last = 0 then none else some last) ∧ (L ≠ [] → h.next last = L.headD 0)

/-- The values of the nodes `L`, in order. -/
def values {V : Type} (h : Heap V) (L : List Nat) : List V := L.map h.value

/-- Two heaps hold the same nodes with the same values: they differ at most in `next`
fields. -/
def SameData {V : Type} (h h' : Heap V) : Prop :=
  h'.value = h.value ∧ h'.freed = h.freed ∧ h'.brk = h.brk ∧ h'.log = h.log

/-! ## The passes of the merge sort on the list of nodes -/

/-- The list is a sequence of runs of `s` elements, the last one possibly shorter, each
sorted by `le`. -/
inductive Runs {α : Type} (le : α → α → Bool) (s : Nat) : List α → Prop where
  | nil : Runs le s []
  | cons (run rest : List α) : run.length ≤ s → (rest ≠ [] → run.length = s) →
      run.Pairwise (fun a b => le a b = true) → Runs le s rest → Runs le s (run ++ rest)

/-- A heap holding the ring of nodes `1, 2, 3` with values `5, 3, 4`. -/
def demoHeap : Heap Nat :=
  { next := fun a => if a = 1 then 2 else if a = 2 then 3 else 1,
    value := fun a => if a = 1 then 5 else if a = 2 then 3 else 4,
    freed := fun _ => false, brk := 3, log := [] }

/-- Three-way comparison of natural numbers. -/
def natCmp (a b : Nat) : Int := (a : Int) - (b : Int)

/-! ## The heap after an operation -/

/-- The heap after `_clist_insertAfter` at a valid `node` of a non-empty list: the new
node `brk + 1` holds `v` and stands between `node` and its former successor. -/
def Heap.inserted {V : Type} (h : Heap V) (node : Nat) (v : V) : Heap V :=
  { next := Function.update (Function.update h.next (h.brk + 1) (h.next node)) node
      (h.brk + 1),
    value := Function.update h.value (h.brk + 1) v,
    freed := Function.update h.freed (h.brk + 1) false,
    brk := h.brk + 1, log := h.log }

/-- The heap after `_clist_insertAfter` into the empty list: the new node `brk + 1`
holds `v` and links to itself. -/
def Heap.insertedFirst {V : Type} (h : Heap V) (v : V) : Heap V :=
  { next := Function.update h.next (h.brk + 1) (h.brk + 1),
    value := Function.update h.value (h.brk + 1) v,
    freed := Function.update h.freed (h.brk + 1) false,
    brk := h.brk + 1, log := h.log }

/-- The heap after `_clist_eraseAfter` at `node`: `node` links past its former
successor, which is destroyed and freed. -/
def Heap.erased {V : Type} (h : Heap V) (node : Nat) : Heap V :=
  { next := Function.update h.next node (h.next (h.next node)),
    value := h.value,
    freed := Function.update h.freed (h.next node) true,
    brk := h.brk, log := h.log ++ [h.value (h.next node)] }

/-- The heap after the link exchange of `_clist_tag_splice` at `pos` with a non-empty
`other`. -/
def Heap.spliced {V : Type} (h : Heap V) (pos otherLast : Nat) : Heap V :=
  { next := Function.update (Function.update h.next pos (h.next otherLast)) otherLast
      (h.next pos),
    value := h.value, freed := h.freed, brk := h.brk, log := h.log }

/-- A heap holding two rings: nodes `1, 2` with values `1, 2` and nodes `3, 4` with values
`3, 4`. -/
def pairHeap : Heap Nat :=
  { next := fun a => if a = 1 then 2 else if a = 2 then 1 else if a = 3 then 4 else 3,
    value := fun a => a,
    freed := fun _ => false, brk := 4, log := [] }

/-- The iterator reached by `clist_tag_begin` followed by `i` calls of
`clist_tag_next`. -/
def iterAt {V : Type} (h : Heap V) (last : Nat) (i : Nat) : Except Err Nat := do
  let it ← clist_begin h last
  nodeAt h last i it

/-- One iteration of the loop `while (1)` of `_clist_mergesort`, from its first statement
up to and including `tail->next = list`: the heap, `list`, `tail` and `nmerges` at that
point. -/
def passOnce {V : Type} (cmp : Heap V → Nat → Nat → Except Err Int) (fuel : Nat)
    (h : Heap V) (list insize : Nat) : Except Err (Heap V × Nat × Nat × Nat) := do
  let s ← passLoop cmp insize list fuel
    { h := h, p := list, q := 0, list := 0, tail := 0, psize := 0, qsize := 0, nmerges := 0 }
  let h ← s.h.wrNext s.tail s.list
  pure (h, s.list, s.tail, s.nmerges)

/-- The heap, `list` and `insize` after `j` iterations of the loop `while (1)` of
`_clist_mergesort` started at `insize = 1`, when none of them met the exit test
`nmerges <= 1`: each iteration is a pass followed by `insize *= 2`. -/
def afterPasses {V : Type} (cmp : Heap V → Nat → Nat → Except Err Int) (fuel : Nat) :
    Nat → Heap V → Nat → Except Err (Heap V × Nat × Nat)
  | 0, h, list => pure (h, list, 1)
  | j + 1, h, list => do
    let (h, list, insize) ← afterPasses cmp fuel j h list
    let r ← passOnce cmp fuel h list insize
    let insize ← intOf (insize * 2)
    pure (r.1, r.2.1, insize)

/-- Iteration `j` (counted from `0`) of the loop `while (1)` of `_clist_mergesort`, up to
`tail->next = list`: the value of `insize` in it, and the heap, `list`, `tail` and
`nmerges` it leaves. -/
def passAt {V : Type} (cmp : Heap V → Nat → Nat → Except Err Int) (fuel : Nat) (j : Nat)
    (h : Heap V) (list : Nat) : Except Err (Nat × Heap V × Nat × Nat × Nat) := do
  let (h, list, insize) ← afterPasses cmp fuel j h list
  let r ← passOnce cmp fuel h list insize
  pure (insize, r)

/-- A second heap with the ring of nodes `1, 2, 3`, back node `3`, and the values
`4, 2, 6`. -/
def demoHeap2 : Heap Nat :=
  { next := fun a => if a = 1 then 2 else if a = 2 then 3 else 1,
    value := fun a => if a = 1 then 4 else if a = 2 then 2 else 6,
    freed := fun _ => false, brk := 3, log := [] }

/-- A comparator on numbers that looks at the quotient by `4` only. -/
def quarterCmp (a b : Nat) : Int := natCmp (a / 4) (b / 4)

@[simp] theorem bind_ok {ε α β : Type} (a : α) (f : α → Except ε β) :
    (Except.ok a >>= f) = f a := rfl

@[simp] theorem bind_error {ε α β : Type} (e : ε) (f : α → Except ε β) :
    (Except.error e >>= f) = Except.error e := rfl

@[simp] theorem pure_eq_ok {ε α : Type} (a : α) : (pure a : Except ε α) = Except.ok a := rfl

theorem rdNext_ok {V : Type} {h : Heap V} {p : Nat} (hp : h.valid p) :
    h.rdNext p = .ok (h.next p) := by simp [Heap.rdNext, hp]

theorem rdValue_ok {V : Type} {h : Heap V} {p : Nat} (hp : h.valid p) :
    h.rdValue p = .ok (h.value p) := by simp [Heap.rdValue, hp]

theorem wrNext_ok {V : Type} {h : Heap V} {p : Nat} (v : Nat) (hp : h.valid p) :
    h.wrNext p v = .ok { h with next := Function.update h.next p v } := by
  simp [Heap.wrNext, hp]

theorem rdNext_null {V : Type} (h : Heap V) : h.rdNext 0 = .error .fault := by
  simp [Heap.rdNext, Heap.valid]

theorem valid_ne_zero {V : Type} {h : Heap V} {p : Nat} (hp : h.valid p) : p ≠ 0 := hp.1

theorem SameData.refl {V : Type} (h : Heap V) : SameData h h := ⟨rfl, rfl, rfl, rfl⟩

theorem SameData.valid {V : Type} {a b : Heap V} (h : SameData a b) {p : Nat}
    (hp : a.valid p) : b.valid p := by
  obtain ⟨_, h2, h3, _⟩ := h
  simpa [Heap.valid, h2, h3] using hp

theorem Ring.last_eq {V : Type} {h : Heap V} {last : Nat} {L : List Nat} (hR : Ring h last L)
    (hne : L ≠ []) : last = L.getLastD 0 ∧ last ≠ 0 := by
  obtain ⟨_, _, _, hlast, _⟩ := hR
  by_cases h0 : last = 0
  · simp [h0] at hlast; exact absurd hlast hne
  · simp only [h0, if_false] at hlast
    refine ⟨?_, h0⟩
    rw [List.getLastD_eq_getLast?, hlast]; rfl

theorem Ring.nil_iff {V : Type} {h : Heap V} {last : Nat} {L : List Nat} (hR : Ring h last L) :
    L = [] ↔ last = 0 := by
  obtain ⟨_, _, _, hlast, _⟩ := hR
  by_cases h0 : last = 0
  · simp [h0] at hlast; simp [h0, hlast]
  · simp only [h0, if_false] at hlast
    constructor
    · intro e; subst e; simp at hlast
    · intro e; exact absurd e h0

theorem demoHeap_ring : Ring demoHeap 3 [1, 2, 3] := by
  refine ⟨by decide, by decide, ?_, by decide, by decide⟩
  simp [demoHeap]

theorem Ring.mem_last {V : Type} {h : Heap V} {last : Nat} {L : List Nat} (hR : Ring h last L)
    (hne : L ≠ []) : last ∈ L := by
  have := (hR.last_eq hne).1
  rw [this, List.getLastD_eq_getLast?, List.getLast?_eq_getLast _ hne]
  exact List.getLast_mem _

/-- C4 (the code at the failing input): `sort` of the empty list evaluates
`self->last->next` with `self->last == NULL`, an invalid node access, whatever the heap
and the loop bound are. -/
theorem sort_empty_faults {V R : Type} (valueGetRaw : V → R) (valueCompareRaw : R → R → Int)
    (fuel : Nat) (h : Heap V) :
    clist_sort valueGetRaw valueCompareRaw fuel h 0 = .error .fault := by
  simp [clist_sort, rdNext_null]

/-- The engine itself accepts the empty chain: `if (!list) return NULL`. -/
theorem mergesort_null {V : Type} (cmp : Heap V → Nat → Nat → Except Err Int) (fuel : Nat)
    (h : Heap V) : _clist_mergesort cmp fuel h 0 = .ok (h, 0) := by
  simp [_clist_mergesort]

theorem chain_congr {f g : Nat → Nat} : ∀ {M : List Nat}, (∀ x ∈ M.dropLast, f x = g x) →
    M.Chain' (fun x y => f x = y) → M.Chain' (fun x y => g x = y)
  | [], _, _ => List.chain'_nil
  | [a], _, _ => List.chain'_singleton a
  | a :: b :: M, h, hc => by
    rw [List.chain'_cons] at hc ⊢
    have ha : f a = g a := h a (by simp)
    exact ⟨ha ▸ hc.1, chain_congr (fun x hx => h x (by simp; exact Or.inr hx)) hc.2⟩

theorem getLast?_eq_of_ring {V : Type} {h : Heap V} {last : Nat} {L : List Nat}
    (hR : Ring h last L) (hne : L ≠ []) : L.getLast? = some last := by
  have h0 := (hR.last_eq hne).2
  have := hR.2.2.2.1
  simpa [h0] using this

theorem Ring.closed {V : Type} {h : Heap V} {last : Nat} {L : List Nat} (hR : Ring h last L)
    (hne : L ≠ []) : (L ++ [L.headD 0]).Chain' (fun x y => h.next x = y) := by
  rw [List.chain'_append]
  refine ⟨hR.2.2.1, List.chain'_singleton _, ?_⟩
  intro x hx y hy
  rw [getLast?_eq_of_ring hR hne] at hx
  simp only [List.head?_cons, Option.mem_def, Option.some.injEq] at hx hy
  subst hx; subst hy
  exact hR.2.2.2.2 hne

theorem Ring.of_closed {V : Type} {h : Heap V} {last : Nat} {L : List Nat} (hnd : L.Nodup)
    (hv : ∀ x ∈ L, h.valid x) (hlast : L.getLast? = some last)
    (hc : (L ++ [L.headD 0]).Chain' (fun x y => h.next x = y)) : Ring h last L := by
  have hne : L ≠ [] := by intro e; subst e; simp at hlast
  have hmem : last ∈ L := List.mem_of_getLast?_eq_some hlast
  have h0 : last ≠ 0 := (hv last hmem).1
  rw [List.chain'_append] at hc
  refine ⟨hnd, hv, hc.1, by simp [h0, hlast], ?_⟩
  intro _
  exact hc.2.2 last (by simp [hlast]) _ (by simp)

theorem Ring.nil {V : Type} (h : Heap V) : Ring h 0 [] := by
  refine ⟨List.nodup_nil, by simp, List.chain'_nil, by simp, by simp⟩

theorem Ring.eq_nil {V : Type} {h : Heap V} {L : List Nat} (hR : Ring h 0 L) : L = [] :=
  hR.nil_iff.2 rfl

theorem Ring.dropLast_ne {V : Type} {h : Heap V} {last : Nat} {L : List Nat}
    (hR : Ring h last L) {x : Nat} (hx : x ∈ L.dropLast) : x ≠ last := by
  rintro rfl
  have hne : L ≠ [] := by intro e; subst e; simp at hx
  have hl := getLast?_eq_of_ring hR hne
  have : L = L.dropLast ++ [x] := by
    rw [List.getLast?_eq_getLast _ hne, Option.some.injEq] at hl
    rw [← hl]; exact (List.dropLast_append_getLast hne).symm
  have hnd := hR.1
  rw [this, List.nodup_append] at hnd
  exact hnd.2.2 hx (by simp)

theorem Heap.valid_le {V : Type} {h : Heap V} {p : Nat} (hp : h.valid p) : p ≤ h.brk := hp.2.1

/-- A ring read from another node: the traversal `A ++ B` of the ring with back node
`last` is the traversal `B ++ A` of the same ring with back node the last of `A`. -/
theorem Ring.rotate {V : Type} {h : Heap V} {last : Nat} {A B : List Nat}
    (hR : Ring h last (A ++ B)) (hA : A ≠ []) (hB : B ≠ []) :
    Ring h (A.getLastD 0) (B ++ A) := by
  have hne : A ++ B ≠ [] := by simp [hA]
  have hc := hR.closed hne
  obtain ⟨a, A', rfl⟩ := List.exists_cons_of_ne_nil hA
  obtain ⟨b, B', rfl⟩ := List.exists_cons_of_ne_nil hB
  refine Ring.of_closed ?_ ?_ ?_ ?_
  · exact (List.perm_append_comm.nodup_iff).1 hR.1
  · intro x hx
    exact hR.2.1 x (by simp only [List.mem_append] at hx ⊢; tauto)
  · rw [List.getLast?_append_of_ne_nil _ hA, List.getLastD_eq_getLast?]
    simp [List.getLast?_eq_getLast]
  · have h1 : (b :: B' ++ [a]).Chain' (fun x y => h.next x = y) := by
      have e1 : (a :: A' ++ b :: B') ++ [(a :: A' ++ b :: B').headD 0] =
          (a :: A') ++ ((b :: B') ++ [a]) := by simp
      rw [e1] at hc
      exact hc.right_of_append
    have h2 : ([a] ++ (A' ++ [b])).Chain' (fun x y => h.next x = y) := by
      have e2 : (a :: A' ++ b :: B') ++ [(a :: A' ++ b :: B').headD 0] =
          ([a] ++ (A' ++ [b])) ++ (B' ++ [a]) := by simp
      rw [e2] at hc
      exact hc.left_of_append
    have := List.Chain'.append_overlap h1 h2 (by simp)
    simpa using this

theorem insertAfter_eval {V : Type} {h : Heap V} {last node : Nat} (v : V)
    (hv : h.valid node) (hl : last ≠ 0) :
    _clist_insertAfter h last node v = .ok (h.inserted node v, h.brk + 1) := by
  unfold Heap.inserted
  have hne : node ≠ h.brk + 1 := by have := hv.2.1; omega
  have h1 : (h.alloc.2).valid node := by
    refine ⟨hv.1, ?_, ?_⟩
    · simp only [Heap.alloc]; have := hv.2.1; omega
    · simp only [Heap.alloc, Function.update_noteq hne]; exact hv.2.2
  simp only [_clist_insertAfter, Heap.alloc, hl, ne_eq, not_false_eq_true, if_true,
    Heap.rdNext, Heap.wrValue, Heap.wrNext, Heap.valid, hv.1, bind_ok, pure_eq_ok,
    Function.update_same, Function.update_noteq hne, hv.2.2, Nat.le_refl, and_self, and_true,
    Nat.succ_ne_zero, true_and]
  have : node ≤ h.brk + 1 := by have := hv.2.1; omega
  simp [this]

theorem insertAfter_eval_empty {V : Type} (h : Heap V) (v : V) :
    _clist_insertAfter h 0 0 v = .ok (h.insertedFirst v, h.brk + 1) := by
  simp [Heap.insertedFirst, _clist_insertAfter, Heap.alloc, Heap.wrValue, Heap.wrNext, Heap.valid]

theorem valid_inserted {V : Type} {h : Heap V} (node : Nat) (v : V) {x : Nat}
    (hx : h.valid x) : (h.inserted node v).valid x := by
  have hne : x ≠ h.brk + 1 := by have := hx.2.1; omega
  refine ⟨hx.1, ?_, ?_⟩
  · simp only [Heap.inserted]; have := hx.2.1; omega
  · simp only [Heap.inserted, Function.update_noteq hne]; exact hx.2.2

theorem valid_inserted_new {V : Type} (h : Heap V) (node : Nat) (v : V) :
    (h.inserted node v).valid (h.brk + 1) := by
  simp [Heap.valid, Heap.inserted]

/-- Inserting after the node `pos` of a ring puts the new node right after `pos` in the
traversal; it becomes the back node exactly when `pos` was the back node. -/
theorem Ring.insert {V : Type} {h : Heap V} {last pos : Nat} {A B : List Nat}
    (hR : Ring h last (A ++ pos :: B)) (v : V) :
    Ring (h.inserted pos v) (if B = [] then h.brk + 1 else last)
      (A ++ pos :: (h.brk + 1) :: B) := by
  have hne : A ++ pos :: B ≠ [] := by simp
  have hc := hR.closed hne
  have hnew : ∀ x ∈ A ++ pos :: B, x ≠ h.brk + 1 := by
    intro x hx; have := (hR.2.1 x hx).2.1; omega
  have hnd := hR.1
  have hposA : pos ∉ A := by
    intro hm
    rw [List.nodup_append] at hnd
    exact hnd.2.2 hm (by simp)
  have hposB : pos ∉ B := by
    intro hm
    have := (List.nodup_append.1 hnd).2.1
    exact (List.nodup_cons.1 this).1 hm
  refine Ring.of_closed ?_ ?_ ?_ ?_
  · have : (A ++ pos :: (h.brk + 1) :: B).Perm ((h.brk + 1) :: (A ++ pos :: B)) := by
      have h1 : (A ++ pos :: (h.brk + 1) :: B) = (A ++ [pos]) ++ (h.brk + 1) :: B := by simp
      have h2 : (A ++ pos :: B) = (A ++ [pos]) ++ B := by simp
      rw [h1, h2]
      exact List.perm_middle
    rw [this.nodup_iff, List.nodup_cons]
    exact ⟨fun hm => hnew _ hm rfl, hnd⟩
  · intro x hx
    have : x = h.brk + 1 ∨ x ∈ A ++ pos :: B := by
      simp only [List.mem_append, List.mem_cons] at hx ⊢; tauto
    rcases this with rfl | hx
    · exact valid_inserted_new h pos v
    · exact valid_inserted pos v (hR.2.1 x hx)
  · have hl := getLast?_eq_of_ring hR hne
    by_cases hB : B = []
    · subst hB; simp
    · simp only [hB, if_false]
      rw [← hl]
      have e1 : A ++ pos :: (h.brk + 1) :: B = (A ++ [pos, h.brk + 1]) ++ B := by simp
      have e2 : A ++ pos :: B = (A ++ [pos]) ++ B := by simp
      rw [e1, e2, List.getLast?_append_of_ne_nil _ hB, List.getLast?_append_of_ne_nil _ hB]
  · have hd : (A ++ pos :: (h.brk + 1) :: B).headD 0 = (A ++ pos :: B).headD 0 := by
      cases A <;> simp
    rw [hd]
    have e1 : A ++ pos :: B ++ [(A ++ pos :: B).headD 0] =
        A ++ pos :: (B ++ [(A ++ pos :: B).headD 0]) := by simp
    rw [e1, List.chain'_split] at hc
    have e2 : A ++ pos :: (h.brk + 1) :: B ++ [(A ++ pos :: B).headD 0] =
        A ++ pos :: ((h.brk + 1) :: (B ++ [(A ++ pos :: B).headD 0])) := by simp
    rw [e2, List.chain'_split]
    have hpe : pos ≠ h.brk + 1 := hnew pos (by simp)
    refine ⟨chain_congr ?_ hc.1, ?_⟩
    · intro x hx
      rw [List.dropLast_concat] at hx
      have h1 : x ≠ pos := fun e => hposA (e ▸ hx)
      have h2 : x ≠ h.brk + 1 := hnew x (by simp [hx])
      simp [Heap.inserted, Function.update_noteq h1, Function.update_noteq h2]
    · have hnext : h.next pos = (B ++ [(A ++ pos :: B).headD 0]).headD 0 := by
        have := hc.2
        cases hB : B ++ [(A ++ pos :: B).headD 0] with
        | nil => simp at hB
        | cons b B' => rw [hB] at this; simpa using this.rel_head
      have htail : (B ++ [(A ++ pos :: B).headD 0]).Chain'
          (fun x y => (h.inserted pos v).next x = y) := by
        refine chain_congr ?_ hc.2.tail
        intro x hx
        rw [List.dropLast_concat] at hx
        have h1 : x ≠ pos := fun e => hposB (e ▸ hx)
        have h2 : x ≠ h.brk + 1 := hnew x (by simp [hx])
        simp [Heap.inserted, Function.update_noteq h1, Function.update_noteq h2]
      refine List.Chain'.cons ?_ (List.Chain'.cons' htail ?_)
      · simp [Heap.inserted]
      · intro y hy
        have : (h.inserted pos v).next (h.brk + 1) = h.next pos := by
          simp [Heap.inserted, Function.update_noteq hpe.symm]
        rw [this, hnext]
        cases hB : B ++ [(A ++ pos :: B).headD 0] with
        | nil => simp at hB
        | cons b B' => rw [hB] at hy; simp at hy; simp [hy]

theorem values_inserted {V : Type} {h : Heap V} (node : Nat) (v : V) {M : List Nat}
    (hM : ∀ x ∈ M, h.valid x) : values (h.inserted node v) M = values h M := by
  simp only [values]
  refine List.map_congr_left ?_
  intro x hx
  have hne : x ≠ h.brk + 1 := by have := (hM x hx).2.1; omega
  simp [Heap.inserted, Function.update_noteq hne]

theorem Ring.split_last {V : Type} {h : Heap V} {last : Nat} {L : List Nat}
    (hR : Ring h last L) (hne : L ≠ []) : L = L.dropLast ++ [last] := by
  have hl := getLast?_eq_of_ring hR hne
  rw [List.getLast?_eq_getLast _ hne, Option.some.injEq] at hl
  rw [← hl]; exact (List.dropLast_append_getLast hne).symm

theorem Ring.insertFirst {V : Type} (h : Heap V) (v : V) :
    Ring (h.insertedFirst v) (h.brk + 1) [h.brk + 1] := by
  refine ⟨by simp, ?_, by simp, by simp, by simp [Heap.insertedFirst]⟩
  intro x hx
  simp only [List.mem_singleton] at hx
  subst hx
  simp [Heap.valid, Heap.insertedFirst]

theorem pushBack_spec {V : Type} {h : Heap V} {last : Nat} {L : List Nat}
    (hR : Ring h last L) (v : V) :
    ∃ h', clist_pushBack h last v = .ok (h', h.brk + 1) ∧
      Ring h' (h.brk + 1) (L ++ [h.brk + 1]) ∧
      values h' (L ++ [h.brk + 1]) = values h L ++ [v] := by
  by_cases hne : L = []
  · subst hne
    have hl : last = 0 := hR.nil_iff.1 rfl
    subst hl
    refine ⟨h.insertedFirst v, ?_, ?_, ?_⟩
    · simp [clist_pushBack, insertAfter_eval_empty]
    · exact Ring.insertFirst h v
    · simp [values, Heap.insertedFirst]
  · have hl0 := (hR.last_eq hne).2
    have hlv := hR.2.1 last (hR.mem_last hne)
    have hsplit := hR.split_last hne
    refine ⟨h.inserted last v, ?_, ?_, ?_⟩
    · simp [clist_pushBack, insertAfter_eval v hlv hl0]
    · have hR' := hR
      rw [hsplit] at hR'
      have := Ring.insert hR' v
      simp only [if_true] at this
      have e : L ++ [h.brk + 1] = L.dropLast ++ [last, h.brk + 1] := by
        conv_lhs => rw [hsplit]
        simp
      rw [e]
      simpa using this
    · rw [values, List.map_append, ← values, values_inserted last v hR.2.1]
      simp [Heap.inserted]

theorem pushFront_spec {V : Type} {h : Heap V} {last : Nat} {L : List Nat}
    (hR : Ring h last L) (v : V) :
    ∃ h', clist_pushFront h last v = .ok (h', if last = 0 then h.brk + 1 else last) ∧
      Ring h' (if last = 0 then h.brk + 1 else last) ((h.brk + 1) :: L) ∧
      values h' ((h.brk + 1) :: L) = v :: values h L := by
  by_cases hne : L = []
  · subst hne
    have hl : last = 0 := hR.nil_iff.1 rfl
    subst hl
    refine ⟨h.insertedFirst v, ?_, ?_, ?_⟩
    · simp [clist_pushFront, insertAfter_eval_empty]
    · simpa using Ring.insertFirst h v
    · simp [values, Heap.insertedFirst]
  · have hl0 := (hR.last_eq hne).2
    have hlv := hR.2.1 last (hR.mem_last hne)
    have hsplit := hR.split_last hne
    refine ⟨h.inserted last v, ?_, ?_, ?_⟩
    · simp [clist_pushFront, insertAfter_eval v hlv hl0]
    · have hR' := hR
      rw [hsplit] at hR'
      have h1 := Ring.insert hR' v
      simp only [if_true] at h1
      have e : L.dropLast ++ [last, h.brk + 1] = L ++ [h.brk + 1] := by
        conv_rhs => rw [hsplit]
        simp
      have e' : L.dropLast ++ last :: [h.brk + 1] = L ++ [h.brk + 1] := e
      rw [e'] at h1
      have h2 := h1.rotate hne (by simp)
      simp only [hl0, if_false]
      have e3 : L.getLastD 0 = last := (hR.last_eq hne).1.symm
      rw [e3] at h2
      simpa using h2
    · rw [values, List.map_cons, ← values, values_inserted last v hR.2.1]
      simp [Heap.inserted]

theorem eraseAfter_eval {V : Type} {h : Heap V} (last : Nat) {node : Nat}
    (hv : h.valid node) (hd : h.valid (h.next node)) :
    _clist_eraseAfter h last node = .ok (h.erased node,
      if h.next node = h.next (h.next node) then 0
      else if last = h.next node then node else last) := by
  simp only [_clist_eraseAfter, rdNext_ok hv, rdNext_ok hd, bind_ok, wrNext_ok _ hv,
    Heap.destroyValue, Heap.free, Heap.valid, pure_eq_ok, Heap.erased]
  have h1 := hd.1
  have h2 := hd.2.1
  have h3 := hd.2.2
  simp [h1, h2, h3]

theorem values_erased {V : Type} (h : Heap V) (node : Nat) (M : List Nat) :
    values (h.erased node) M = values h M := rfl

theorem map_eraseIdx {α β : Type} (f : α → β) :
    ∀ (L : List α) (k : Nat), (L.eraseIdx k).map f = (L.map f).eraseIdx k
  | [], _ => by simp
  | _ :: _, 0 => by simp
  | a :: L, k + 1 => by simp [map_eraseIdx f L k]

/-- Erasing after the node `pos` of a ring, when the node after `pos` in the traversal
is `del`: `del` leaves the traversal; `pos` becomes the back node when `del` was. -/
theorem Ring.erase {V : Type} {h : Heap V} {last pos del : Nat} {A B : List Nat}
    (hR : Ring h last (A ++ pos :: del :: B)) :
    h.next pos = del ∧ h.next del ≠ del ∧ (last = del ↔ B = []) ∧
    Ring (h.erased pos) (if B = [] then pos else last) (A ++ pos :: B) := by
  have hne : A ++ pos :: del :: B ≠ [] := by simp
  have hc := hR.closed hne
  have hnd := hR.1
  have hnd2 := (List.nodup_append.1 hnd)
  have hposA : pos ∉ A := fun hm => hnd2.2.2 hm (by simp)
  have hnd3 := List.nodup_cons.1 hnd2.2.1
  have hnd4 := List.nodup_cons.1 hnd3.2
  have hpd : pos ≠ del := fun e => hnd3.1 (by simp [e])
  have hposB : pos ∉ B := fun hm => hnd3.1 (by simp [hm])
  have hdelB : del ∉ B := hnd4.1
  have hdelA : del ∉ A := fun hm => hnd2.2.2 hm (by simp)
  have e1 : A ++ pos :: del :: B ++ [(A ++ pos :: del :: B).headD 0] =
      A ++ pos :: (del :: (B ++ [(A ++ pos :: del :: B).headD 0])) := by simp
  rw [e1, List.chain'_split] at hc
  have hpn : h.next pos = del := hc.2.rel_head
  have hhd : (A ++ pos :: del :: B).headD 0 = (A ++ pos :: B).headD 0 := by
    cases A <;> simp
  have hdn : h.next del = (B ++ [(A ++ pos :: B).headD 0]).headD 0 := by
    have := hc.2.tail
    simp only [List.tail_cons] at this
    rw [hhd] at this
    cases hB : B ++ [(A ++ pos :: B).headD 0] with
    | nil => simp at hB
    | cons b B' => rw [hB] at this; simpa using this.rel_head
  have hdd : h.next del ≠ del := by
    rw [hdn]
    cases B with
    | nil =>
      cases A with
      | nil => simpa using hpd
      | cons a A' =>
        simp only [List.nil_append, List.cons_append, List.headD_cons]
        intro e; exact hdelA (by simp [e])
    | cons b B' =>
      simp only [List.cons_append, List.headD_cons]
      intro e; exact hdelB (by simp [e])
  have hl := getLast?_eq_of_ring hR hne
  have hlast : last = del ↔ B = [] := by
    constructor
    · intro e
      by_contra hB
      have e2 : A ++ pos :: del :: B = (A ++ [pos, del]) ++ B := by simp
      rw [e2, List.getLast?_append_of_ne_nil _ hB] at hl
      have := List.mem_of_getLast?_eq_some hl
      exact hdelB (e ▸ this)
    · intro e
      subst e
      have e2 : A ++ [pos, del] = (A ++ [pos]) ++ [del] := by simp
      rw [e2, List.getLast?_concat] at hl
      exact (Option.some.inj hl).symm
  refine ⟨hpn, hdd, hlast, ?_⟩
  refine Ring.of_closed ?_ ?_ ?_ ?_
  · refine hnd.sublist ?_
    exact List.Sublist.append (List.Sublist.refl A)
      ((List.sublist_cons_self del B).cons₂ pos)
  · intro x hx
    have hxL : x ∈ A ++ pos :: del :: B := by
      simp only [List.mem_append, List.mem_cons] at hx ⊢; tauto
    have hxd : x ≠ del := by
      rintro rfl
      simp only [List.mem_append, List.mem_cons] at hx
      rcases hx with h1 | h1 | h1
      · exact hdelA h1
      · exact hpd h1.symm
      · exact hdelB h1
    have hv := hR.2.1 x hxL
    refine ⟨hv.1, hv.2.1, ?_⟩
    simp only [Heap.erased, hpn, Function.update_noteq hxd]
    exact hv.2.2
  · by_cases hB : B = []
    · subst hB; simp
    · simp only [hB, if_false]
      rw [← hl]
      have e2 : A ++ pos :: del :: B = (A ++ [pos, del]) ++ B := by simp
      have e3 : A ++ pos :: B = (A ++ [pos]) ++ B := by simp
      rw [e2, e3, List.getLast?_append_of_ne_nil _ hB, List.getLast?_append_of_ne_nil _ hB]
  · have e4 : A ++ pos :: B ++ [(A ++ pos :: B).headD 0] =
        A ++ pos :: (B ++ [(A ++ pos :: B).headD 0]) := by simp
    rw [e4, List.chain'_split]
    refine ⟨chain_congr ?_ hc.1, ?_⟩
    · intro x hx
      rw [List.dropLast_concat] at hx
      have h1 : x ≠ pos := fun e => hposA (e ▸ hx)
      simp [Heap.erased, Function.update_noteq h1]
    · have htail : (B ++ [(A ++ pos :: B).headD 0]).Chain'
          (fun x y => (h.erased pos).next x = y) := by
        have := hc.2.tail.tail
        simp only [List.tail_cons] at this
        rw [hhd] at this
        refine chain_congr ?_ this
        intro x hx
        rw [List.dropLast_concat] at hx
        have h1 : x ≠ pos := fun e => hposB (e ▸ hx)
        simp [Heap.erased, Function.update_noteq h1]
      refine List.Chain'.cons' htail ?_
      intro y hy
      have : (h.erased pos).next pos = h.next del := by simp [Heap.erased, hpn]
      rw [this, hdn]
      cases hB : B ++ [(A ++ pos :: B).headD 0] with
      | nil => simp at hB
      | cons b B' => rw [hB] at hy; simp at hy; simp [hy]

theorem split_at_index {α : Type} : ∀ (L : List α) (i : Nat) (x : α), L[i]? = some x →
    ∃ A C, L = A ++ x :: C ∧ A.length = i
  | [], _, _, h => by simp at h
  | a :: L, 0, x, h => ⟨[], L, by simp at h; simp [h], rfl⟩
  | a :: L, i + 1, x, h => by
    obtain ⟨A, C, e, l⟩ := split_at_index L i x (by simpa using h)
    exact ⟨a :: A, C, by simp [e], by simp [l]⟩

/-- The effect of `erase_after(pos)` for `pos` the node at traversal index `i` of a ring of
`n` nodes: the node at index `(i + 1) % n`, which is `pos->next`, leaves the traversal, is
destroyed and freed; the new back reference is `NULL` when `n = 1`, `pos` when the back
was removed, and the old back otherwise. -/
theorem eraseAfter_spec {V : Type} {h : Heap V} {last : Nat} {L : List Nat}
    (hR : Ring h last L) {i pos : Nat} (hi : L[i]? = some pos) :
    ∃ h', clist_eraseAfter h last pos = .ok (h',
        if L.length = 1 then 0 else if i + 2 = L.length then pos else last) ∧
      Ring h' (if L.length = 1 then 0 else if i + 2 = L.length then pos else last)
        (L.eraseIdx ((i + 1) % L.length)) ∧
      values h' (L.eraseIdx ((i + 1) % L.length)) =
        (values h L).eraseIdx ((i + 1) % L.length) ∧
      L[(i + 1) % L.length]? = some (h.next pos) ∧
      h' = h.erased pos := by
  obtain ⟨A, C, hL, hA⟩ := split_at_index L i pos hi
  have hne : L ≠ [] := by rw [hL]; simp
  have hpv : h.valid pos := hR.2.1 pos (by rw [hL]; simp)
  have hvals : ∀ k, values (h.erased pos) (L.eraseIdx k) = (values h L).eraseIdx k := by
    intro k; rw [values_erased, values, values, map_eraseIdx]
  refine ⟨h.erased pos, ?_⟩
  rcases C with _ | ⟨del, B⟩
  · -- `pos` is the back node
    have hlp : last = pos := by
      have := getLast?_eq_of_ring hR hne
      rw [hL, List.getLast?_concat] at this
      exact (Option.some.inj this).symm
    rcases A with _ | ⟨del, M⟩
    · -- a single node
      simp only [List.nil_append] at hL
      simp only [List.length_nil] at hA
      subst hL; subst hA
      have hnp : h.next pos = pos := by
        have := hR.2.2.2.2 hne
        rw [hlp] at this; simpa using this
      have hev := eraseAfter_eval last hpv (by rw [hnp]; exact hpv)
      simp only [hnp, if_true] at hev
      refine ⟨by simpa [clist_eraseAfter] using hev, ?_, hvals _, by simp [hnp], rfl⟩
      simpa using Ring.nil (h.erased pos)
    · -- at least two nodes: the front is removed
      have hlen : L.length = M.length + 2 := by rw [hL]; simp
      have hi' : i = M.length + 1 := by rw [← hA]; simp
      have hmod : (i + 1) % L.length = 0 := by rw [hlen, hi']; simp
      have hR' : Ring h last ([del] ++ (M ++ [pos])) := by rw [hL] at hR; simpa using hR
      have hrot := hR'.rotate (by simp) (by simp)
      have e1 : M ++ [pos] ++ [del] = M ++ pos :: del :: [] := by simp
      rw [e1] at hrot
      obtain ⟨hpn, hdd, _, hRe⟩ := Ring.erase hrot
      simp only [if_true] at hRe
      have hdv : h.valid del := hR.2.1 del (by rw [hL]; simp)
      have hpd : pos ≠ del := by
        have := hR.1; rw [hL] at this
        intro e
        simp [e] at this
      have hev := eraseAfter_eval last hpv (by rw [hpn]; exact hdv)
      rw [hpn] at hev
      have hc1 : ¬ (del = h.next del) := fun e => hdd e.symm
      have hc2 : ¬ (last = del) := by rw [hlp]; exact hpd
      simp only [hc1, hc2, if_false] at hev
      have hn1 : ¬ (L.length = 1) := by omega
      have hn2 : ¬ (i + 2 = L.length) := by omega
      simp only [hn1, hn2, if_false, hmod]
      refine ⟨by simpa [clist_eraseAfter] using hev, ?_, hvals _, ?_⟩
      · rw [hlp, hL]; simpa using hRe
      · rw [hL, hpn]; simp
  · -- `pos` is followed by `del` in the traversal
    have hlen : L.length = A.length + B.length + 2 := by rw [hL]; simp; omega
    have hmod : (i + 1) % L.length = i + 1 := Nat.mod_eq_of_lt (by omega)
    rw [hL] at hR
    obtain ⟨hpn, hdd, hlast, hRe⟩ := Ring.erase hR
    have hdv : h.valid del := hR.2.1 del (by simp)
    have hev := eraseAfter_eval last hpv (by rw [hpn]; exact hdv)
    rw [hpn] at hev
    have hc1 : ¬ (del = h.next del) := fun e => hdd e.symm
    simp only [hc1, if_false] at hev
    have hn1 : ¬ (L.length = 1) := by omega
    have hB : B = [] ↔ i + 2 = L.length := by
      rw [hlen, ← hA]
      constructor
      · intro e; subst e; simp
      · intro e; exact List.length_eq_zero.1 (by omega)
    have hlast' : (if last = del then pos else last) =
        (if i + 2 = L.length then pos else last) := by
      by_cases hb : B = []
      · simp [hlast.2 hb, hB.1 hb]
      · have h1 : ¬ last = del := fun e => hb (hlast.1 e)
        have h2 : ¬ i + 2 = L.length := fun e => hb (hB.2 e)
        simp [h1, h2]
    have hRe' : (if B = [] then pos else last) = (if i + 2 = L.length then pos else last) := by
      by_cases hb : B = []
      · simp [hb, hB.1 hb]
      · have h2 : ¬ i + 2 = L.length := fun e => hb (hB.2 e)
        simp [hb, h2]
    have herase : L.eraseIdx (i + 1) = A ++ pos :: B := by
      rw [hL, List.eraseIdx_append_of_length_le (by omega)]
      have : i + 1 - A.length = 1 := by omega
      rw [this]; rfl
    simp only [hn1, if_false, hmod]
    refine ⟨?_, ?_, hvals _, ?_⟩
    · rw [← hlast']; simpa [clist_eraseAfter] using hev
    · rw [herase, ← hRe']; exact hRe
    · rw [hL, hpn, List.getElem?_append_right (by omega)]
      have : i + 1 - A.length = 1 := by omega
      rw [this]; simp

theorem Ring.next_of_split {V : Type} {h : Heap V} {last : Nat} {A B : List Nat} {x y : Nat}
    (hR : Ring h last (A ++ x :: y :: B)) : h.next x = y ∧ x ≠ last := by
  have hc := hR.2.2.1
  rw [List.chain'_split] at hc
  refine ⟨hc.2.rel_head, ?_⟩
  have hl := getLast?_eq_of_ring hR (by simp)
  have e : A ++ x :: y :: B = (A ++ [x]) ++ (y :: B) := by simp
  rw [e, List.getLast?_append_of_ne_nil _ (by simp)] at hl
  have hm := List.mem_of_getLast?_eq_some hl
  rintro rfl
  have hnd := hR.1
  rw [e, List.nodup_append] at hnd
  exact hnd.2.2 (by simp) hm

theorem clist_begin_ring {V : Type} {h : Heap V} {last : Nat} {L : List Nat}
    (hR : Ring h last L) : clist_begin h last = .ok (L.headD 0) := by
  by_cases hne : L = []
  · subst hne
    have : last = 0 := hR.nil_iff.1 rfl
    simp [clist_begin, this]
  · have h0 := (hR.last_eq hne).2
    have hv := hR.2.1 last (hR.mem_last hne)
    simp [clist_begin, h0, rdNext_ok hv, hR.2.2.2.2 hne]

theorem clist_next_ring {V : Type} {h : Heap V} {last : Nat} {A B : List Nat} {x : Nat}
    (hR : Ring h last (A ++ x :: B)) : clist_next h last x = .ok (B.headD 0) := by
  cases B with
  | nil =>
    have hl := getLast?_eq_of_ring hR (by simp)
    rw [List.getLast?_concat] at hl
    have : x = last := Option.some.inj hl
    simp [clist_next, this]
  | cons y B =>
    have := hR.next_of_split
    have hv := hR.2.1 x (by simp)
    simp [clist_next, this.2, rdNext_ok hv, this.1]

theorem nodeAt_ring {V : Type} {h : Heap V} {last : Nat} {L : List Nat} (hR : Ring h last L)
    {pos : Nat} : ∀ (i : Nat) (A S : List Nat), L = A ++ S → S[i]? = some pos →
      nodeAt h last i (S.headD 0) = .ok pos := by
  intro i
  induction i with
  | zero =>
    intro A S _ hi
    cases S with
    | nil => simp at hi
    | cons x S => simp at hi; simp [nodeAt, hi]
  | succ i ih =>
    intro A S hL hi
    cases S with
    | nil => simp at hi
    | cons x S =>
      simp only [List.getElem?_cons_succ] at hi
      have hR' := hR
      rw [hL] at hR'
      have := ih (A ++ [x]) S (by simp [hL]) hi
      simp only [nodeAt, List.headD_cons, clist_next_ring hR', bind_ok, this]

theorem applyOp_refines {V : Type} {h : Heap V} {last : Nat} {L : List Nat}
    (hR : Ring h last L) (op : Op V) (arr : List V) (href : refStep (values h L) op = some arr) :
    ∃ h' last' L', applyOp h last op = .ok (h', last') ∧ Ring h' last' L' ∧
      values h' L' = arr := by
  cases op with
  | pushBack v =>
    obtain ⟨h', e1, e2, e3⟩ := pushBack_spec hR v
    simp only [refStep, Option.some.injEq] at href
    exact ⟨h', _, _, e1, e2, by rw [e3, href]⟩
  | pushFront v =>
    obtain ⟨h', e1, e2, e3⟩ := pushFront_spec hR v
    simp only [refStep, Option.some.injEq] at href
    exact ⟨h', _, _, e1, e2, by rw [e3, href]⟩
  | popFront =>
    simp only [refStep, values, List.length_map] at href
    have hlen : L.length ≠ 0 := by
      intro e; simp [e] at href
    simp only [hlen, if_false, Option.some.injEq] at href
    have hne : L ≠ [] := fun e => hlen (by simp [e])
    have hi : L[L.length - 1]? = some last := by
      rw [← getLast?_eq_of_ring hR hne, List.getLast?_eq_getElem?]
    obtain ⟨h', e1, e2, e3, _, _⟩ := eraseAfter_spec hR hi
    have hmod : (L.length - 1 + 1) % L.length = 0 := by
      have : L.length - 1 + 1 = L.length := by omega
      rw [this, Nat.mod_self]
    rw [hmod] at e2 e3
    exact ⟨h', _, _, e1, e2, by rw [e3, values, href]⟩
  | eraseAfter i =>
    simp only [refStep, values, List.length_map] at href
    have hlen : i < L.length := by
      by_contra hc; simp [hc] at href
    simp only [hlen, if_true, Option.some.injEq] at href
    have hi : L[i]? = some (L[i]) := List.getElem?_eq_getElem hlen
    obtain ⟨h', e1, e2, e3, _, _⟩ := eraseAfter_spec hR hi
    refine ⟨h', _, _, ?_, e2, by rw [e3, values, href]⟩
    simp only [applyOp, clist_begin_ring hR, bind_ok, nodeAt_ring hR i [] L rfl hi]
    exact e1

theorem runOps_refines {V : Type} : ∀ (ops : List (Op V)) (h : Heap V) (last : Nat)
    (L : List Nat) (arr : List V), Ring h last L → refOps (values h L) ops = some arr →
    ∃ h' last' L', runOps h last ops = .ok (h', last') ∧ Ring h' last' L' ∧
      values h' L' = arr
  | [], h, last, L, arr, hR, href => by
    simp only [refOps, Option.some.injEq] at href
    exact ⟨h, last, L, rfl, hR, href⟩
  | op :: ops, h, last, L, arr, hR, href => by
    simp only [refOps] at href
    cases hstep : refStep (values h L) op with
    | none => simp [hstep] at href
    | some a1 =>
      rw [hstep] at href
      simp only [Option.some_bind] at href
      obtain ⟨h1, last1, L1, e1, e2, e3⟩ := applyOp_refines hR op a1 hstep
      rw [← e3] at href
      obtain ⟨h', last', L', f1, f2, f3⟩ := runOps_refines ops h1 last1 L1 arr e2 href
      exact ⟨h', last', L', by simp [runOps, e1, f1], f2, f3⟩

/-- C6: every sequence of `push_back`, `push_front`, `pop_front` and `erase_after`
operations that the reference array accepts from the empty array (each `pop_front` on a
non-empty list, each `erase_after` at an index of the list) runs without fault on the
list from the empty list, and leaves a well-formed ring whose front-to-back values are
the contents of the reference array. -/
theorem ops_match_reference_array {V : Type} (d : V) (ops : List (Op V)) (arr : List V)
    (href : refOps [] ops = some arr) :
    ∃ h last L, runOps (Heap.empty d) clist_init ops = .ok (h, last) ∧ Ring h last L ∧
      values h L = arr :=
  runOps_refines ops (Heap.empty d) clist_init [] arr (Ring.nil _) href

theorem ops_match_reference_array_witness :
    refOps ([] : List Nat)
        [.pushBack 1, .pushBack 2, .pushBack 3, .popFront, .pushFront 0, .eraseAfter 2] =
      some [2, 3] ∧
    ∃ h last L, runOps (Heap.empty 7)
        clist_init [.pushBack 1, .pushBack 2, .pushBack 3, .popFront, .pushFront 0,
          .eraseAfter 2] = .ok (h, last) ∧
      Ring h last L ∧ values h L = [2, 3] :=
  ⟨by decide, ops_match_reference_array 7 _ _ (by decide)⟩

theorem splice_eval {V : Type} {h : Heap V} (selfLast : Nat) {pos otherLast : Nat}
    (bottom : Bool) (hp : h.valid pos) (ho : h.valid otherLast) :
    _clist_splice h selfLast pos otherLast bottom = .ok (h.spliced pos otherLast,
      if bottom ∧ pos = selfLast then otherLast else selfLast, 0) := by
  have ho' : Heap.valid { h with next := Function.update h.next pos (h.next otherLast) }
      otherLast := ho
  simp only [_clist_splice, hp.1, ho.1, if_false, ne_eq, not_false_eq_true, if_true,
    rdNext_ok hp, rdNext_ok ho, bind_ok, wrNext_ok _ hp, wrNext_ok _ ho', pure_eq_ok,
    Heap.spliced]

theorem values_spliced {V : Type} (h : Heap V) (pos otherLast : Nat) (M : List Nat) :
    values (h.spliced pos otherLast) M = values h M := rfl

/-- Splicing the non-empty ring `LB` in after the node `pos` of another ring puts the
nodes of `LB`, in order, right after `pos`; the back node of `LB` becomes the back node
of the result exactly when `pos` was the back node. -/
theorem Ring.splice {V : Type} {h : Heap V} {a b pos : Nat} {X Y LB : List Nat}
    (hA : Ring h a (X ++ pos :: Y)) (hB : Ring h b LB) (hne : LB ≠ [])
    (hdis : ∀ x ∈ X ++ pos :: Y, x ∉ LB) :
    Ring (h.spliced pos b) (if Y = [] then b else a) (X ++ pos :: (LB ++ Y)) := by
  have hneA : X ++ pos :: Y ≠ [] := by simp
  have hcA := hA.closed hneA
  have hcB := hB.2.2.1
  have hbl := getLast?_eq_of_ring hB hne
  have hbm : b ∈ LB := hB.mem_last hne
  have hnd := hA.1
  have hnd2 := (List.nodup_append.1 hnd)
  have hposX : pos ∉ X := fun hm => hnd2.2.2 hm (by simp)
  have hposY : pos ∉ Y := (List.nodup_cons.1 hnd2.2.1).1
  have hposB : pos ∉ LB := hdis pos (by simp)
  have hpb : pos ≠ b := fun e => hposB (e ▸ hbm)
  have hbX : b ∉ X := fun hm => hdis b (by simp [hm]) hbm
  have hbY : b ∉ Y := fun hm => hdis b (by simp [hm]) hbm
  have hfB : h.next b = LB.headD 0 := hB.2.2.2.2 hne
  have e1 : X ++ pos :: Y ++ [(X ++ pos :: Y).headD 0] =
      X ++ pos :: (Y ++ [(X ++ pos :: Y).headD 0]) := by simp
  rw [e1, List.chain'_split] at hcA
  have hhd : (X ++ pos :: (LB ++ Y)).headD 0 = (X ++ pos :: Y).headD 0 := by
    cases X <;> simp
  have hpn : h.next pos = (Y ++ [(X ++ pos :: Y).headD 0]).headD 0 := by
    have := hcA.2
    cases hY : Y ++ [(X ++ pos :: Y).headD 0] with
    | nil => simp at hY
    | cons y Y' => rw [hY] at this; simpa using this.rel_head
  refine Ring.of_closed ?_ ?_ ?_ ?_
  · have hp : (X ++ pos :: (LB ++ Y)).Perm ((X ++ pos :: Y) ++ LB) := by
      have h1 : X ++ pos :: (LB ++ Y) = (X ++ [pos]) ++ (LB ++ Y) := by simp
      have h2 : (X ++ pos :: Y) ++ LB = (X ++ [pos]) ++ (Y ++ LB) := by simp
      rw [h1, h2]
      exact List.Perm.append_left _ List.perm_append_comm
    rw [hp.nodup_iff, List.nodup_append]
    exact ⟨hnd, hB.1, fun x hx hx' => hdis x hx hx'⟩
  · intro x hx
    have : x ∈ X ++ pos :: Y ∨ x ∈ LB := by
      simp only [List.mem_append, List.mem_cons] at hx ⊢; tauto
    rcases this with hx | hx
    · exact hA.2.1 x hx
    · exact hB.2.1 x hx
  · by_cases hY : Y = []
    · subst hY
      simp only [List.append_nil, if_true]
      have e2 : X ++ pos :: LB = (X ++ [pos]) ++ LB := by simp
      rw [e2, List.getLast?_append_of_ne_nil _ hne, hbl]
    · simp only [hY, if_false]
      have hal := getLast?_eq_of_ring hA hneA
      have e2 : X ++ pos :: (LB ++ Y) = (X ++ pos :: LB) ++ Y := by simp
      have e3 : X ++ pos :: Y = (X ++ [pos]) ++ Y := by simp
      rw [e3, List.getLast?_append_of_ne_nil _ hY] at hal
      rw [e2, List.getLast?_append_of_ne_nil _ hY, hal]
  · rw [hhd]
    have e4 : X ++ pos :: (LB ++ Y) ++ [(X ++ pos :: Y).headD 0] =
        X ++ pos :: (LB ++ (Y ++ [(X ++ pos :: Y).headD 0])) := by simp
    rw [e4, List.chain'_split]
    refine ⟨chain_congr ?_ hcA.1, ?_⟩
    · intro x hx
      rw [List.dropLast_concat] at hx
      have h1 : x ≠ pos := fun e => hposX (e ▸ hx)
      have h2 : x ≠ b := fun e => hbX (e ▸ hx)
      simp [Heap.spliced, Function.update_noteq h1, Function.update_noteq h2]
    · have hLB : LB.Chain' (fun x y => (h.spliced pos b).next x = y) := by
        refine chain_congr ?_ hcB
        intro x hx
        have h1 : x ≠ b := hB.dropLast_ne hx
        have h2 : x ≠ pos := fun e => hposB (e ▸ List.dropLast_subset _ hx)
        simp [Heap.spliced, Function.update_noteq h1, Function.update_noteq h2]
      have hYc : (Y ++ [(X ++ pos :: Y).headD 0]).Chain'
          (fun x y => (h.spliced pos b).next x = y) := by
        refine chain_congr ?_ hcA.2.tail
        intro x hx
        rw [List.dropLast_concat] at hx
        have h1 : x ≠ pos := fun e => hposY (e ▸ hx)
        have h2 : x ≠ b := fun e => hbY (e ▸ hx)
        simp [Heap.spliced, Function.update_noteq h1, Function.update_noteq h2]
      have hmid : (LB ++ (Y ++ [(X ++ pos :: Y).headD 0])).Chain'
          (fun x y => (h.spliced pos b).next x = y) := by
        refine List.Chain'.append hLB hYc ?_
        intro x hx y hy
        rw [hbl] at hx
        simp only [Option.mem_def, Option.some.injEq] at hx
        subst hx
        have : (h.spliced pos b).next b = h.next pos := by simp [Heap.spliced]
        rw [this, hpn]
        cases hY : Y ++ [(X ++ pos :: Y).headD 0] with
        | nil => simp at hY
        | cons y' Y' => rw [hY] at hy; simp at hy; simp [hy]
      refine List.Chain'.cons' hmid ?_
      intro y hy
      have : (h.spliced pos b).next pos = h.next b := by
        simp [Heap.spliced, Function.update_noteq hpb]
      rw [this, hfB]
      obtain ⟨c, LB', rfl⟩ := List.exists_cons_of_ne_nil hne
      simp at hy; simp [hy]

theorem Ring.last_iff {V : Type} {h : Heap V} {a pos : Nat} {X Y : List Nat}
    (hA : Ring h a (X ++ pos :: Y)) : pos = a ↔ Y = [] := by
  have hl := getLast?_eq_of_ring hA (by simp)
  constructor
  · rintro rfl
    by_contra hY
    have e : X ++ pos :: Y = (X ++ [pos]) ++ Y := by simp
    rw [e, List.getLast?_append_of_ne_nil _ hY] at hl
    have hm := List.mem_of_getLast?_eq_some hl
    have hnd := hA.1
    rw [e, List.nodup_append] at hnd
    exact hnd.2.2 (by simp) hm
  · rintro rfl
    rw [List.getLast?_concat] at hl
    exact Option.some.inj hl

theorem pairHeap_ring_a : Ring pairHeap 2 [1, 2] := by
  refine ⟨by decide, by decide, ?_, by decide, by decide⟩
  simp [pairHeap]

theorem pairHeap_ring_b : Ring pairHeap 4 [3, 4] := by
  refine ⟨by decide, by decide, ?_, by decide, by decide⟩
  simp [pairHeap]

/-- The effect of `splice_front` on two rings over disjoint nodes. -/
theorem spliceFront_spec {V : Type} (h : Heap V) (a b : Nat) (LA LB : List Nat)
    (hA : Ring h a LA) (hB : Ring h b LB) (hdis : ∀ x ∈ LA, x ∉ LB) :
    ∃ h', clist_spliceFront h a b = .ok (h', (if a = 0 then b else a), 0) ∧
      Ring h' (if a = 0 then b else a) (LB ++ LA) ∧ Ring h' 0 [] ∧
      values h' (LB ++ LA) = values h LB ++ values h LA := by
  by_cases ha : a = 0
  · subst ha
    have : LA = [] := hA.eq_nil
    subst this
    refine ⟨h, ?_, ?_, Ring.nil h, by simp [values]⟩
    · simp [clist_spliceFront, clist_last, _clist_splice]
    · simpa using hB
  · have hneA : LA ≠ [] := fun e => ha (hA.nil_iff.1 e)
    by_cases hb : b = 0
    · subst hb
      have : LB = [] := hB.eq_nil
      subst this
      refine ⟨h, ?_, ?_, Ring.nil h, by simp [values]⟩
      · simp [clist_spliceFront, clist_last, _clist_splice, ha]
      · simpa [ha] using hA
    · have hneB : LB ≠ [] := fun e => hb (hB.nil_iff.1 e)
      have hav := hA.2.1 a (hA.mem_last hneA)
      have hbv := hB.2.1 b (hB.mem_last hneB)
      have hsplit := hA.split_last hneA
      refine ⟨h.spliced a b, ?_, ?_, Ring.nil _, by simp [values, Heap.spliced]⟩
      · have := splice_eval a false hav hbv
        simpa [clist_spliceFront, clist_last, ha] using this
      · simp only [ha, if_false]
        have hA' := hA
        rw [hsplit] at hA'
        have hs := Ring.splice hA' hB hneB (by rw [← hsplit]; exact hdis)
        simp only [if_true, List.append_nil] at hs
        have e : LA.dropLast ++ a :: LB = (LA.dropLast ++ [a]) ++ LB := by simp
        rw [e] at hs
        have hr := hs.rotate (by simp) hneB
        rw [← hsplit, ← (hA.last_eq hneA).1] at hr
        exact hr

/-- C7: for two well-formed lists `A` and `B` on disjoint nodes (either may be empty),
`splice_front(A, B)` leaves `A` with the traversal of `B` followed by the traversal of
`A`, values included, and `B` empty; the back of `A` is its former back when `A` was
non-empty and the former back of `B` when `A` was empty. -/
theorem spliceFront_partition {V : Type} (h : Heap V) (a b : Nat) (LA LB : List Nat)
    (hA : Ring h a LA) (hB : Ring h b LB) (hdis : ∀ x ∈ LA, x ∉ LB) :
    ∃ h', clist_spliceFront h a b = .ok (h', (if a = 0 then b else a), 0) ∧
      Ring h' (if a = 0 then b else a) (LB ++ LA) ∧ Ring h' 0 [] ∧
      values h' (LB ++ LA) = values h LB ++ values h LA :=
  spliceFront_spec h a b LA LB hA hB hdis

theorem spliceFront_partition_witness :
    Ring pairHeap 2 [1, 2] ∧ Ring pairHeap 4 [3, 4] ∧
    ∃ h', clist_spliceFront pairHeap 2 4 = .ok (h', (if (2 : Nat) = 0 then 4 else 2), 0) ∧
      Ring h' (if (2 : Nat) = 0 then 4 else 2) ([3, 4] ++ [1, 2]) ∧ Ring h' 0 [] ∧
      values h' ([3, 4] ++ [1, 2]) = values pairHeap [3, 4] ++ values pairHeap [1, 2] :=
  ⟨pairHeap_ring_a, pairHeap_ring_b,
   spliceFront_partition pairHeap 2 4 [1, 2] [3, 4] pairHeap_ring_a pairHeap_ring_b
     (by decide)⟩

/-- The effect of `splice_after` at the node of index `i` on two rings over disjoint
nodes. -/
theorem spliceAfter_spec {V : Type} (h : Heap V) (a b : Nat) (LA LB : List Nat)
    (i pos : Nat) (hA : Ring h a LA) (hB : Ring h b LB) (hdis : ∀ x ∈ LA, x ∉ LB)
    (hi : LA[i]? = some pos) :
    ∃ h', clist_spliceAfter h a pos b = .ok (h', (if pos = a ∧ b ≠ 0 then b else a), 0) ∧
      Ring h' (if pos = a ∧ b ≠ 0 then b else a) (LA.take (i + 1) ++ LB ++ LA.drop (i + 1)) ∧
      Ring h' 0 [] ∧
      values h' (LA.take (i + 1) ++ LB ++ LA.drop (i + 1)) =
        (values h LA).take (i + 1) ++ values h LB ++ (values h LA).drop (i + 1) := by
  obtain ⟨X, Y, hL, hX⟩ := split_at_index LA i pos hi
  have htake : LA.take (i + 1) = X ++ [pos] := by
    rw [hL, ← hX]
    have e : X ++ pos :: Y = (X ++ [pos]) ++ Y := by simp
    rw [e, List.take_left' (by simp)]
  have hdrop : LA.drop (i + 1) = Y := by
    rw [hL, ← hX]
    have e : X ++ pos :: Y = (X ++ [pos]) ++ Y := by simp
    rw [e, List.drop_left' (by simp)]
  have hpv : h.valid pos := hA.2.1 pos (by rw [hL]; simp)
  have hvals : ∀ h' : Heap V, h'.value = h.value →
      values h' (LA.take (i + 1) ++ LB ++ LA.drop (i + 1)) =
        (values h LA).take (i + 1) ++ values h LB ++ (values h LA).drop (i + 1) := by
    intro h' e
    simp only [values, e, List.map_append, List.map_take, List.map_drop]
  rw [htake, hdrop] at hvals ⊢
  by_cases hb : b = 0
  · subst hb
    have : LB = [] := hB.eq_nil
    subst this
    refine ⟨h, ?_, ?_, Ring.nil h, hvals h rfl⟩
    · simp [clist_spliceAfter, _clist_splice, hpv.1]
    · simp only [ne_eq, not_true_eq_false, and_false, if_false, List.append_nil]
      rw [hL] at hA
      simpa using hA
  · have hneB : LB ≠ [] := fun e => hb (hB.nil_iff.1 e)
    have hbv := hB.2.1 b (hB.mem_last hneB)
    rw [hL] at hA
    have hlast := hA.last_iff
    have hlast' : (if pos = a ∧ b ≠ 0 then b else a) = (if Y = [] then b else a) := by
      by_cases hY : Y = []
      · simp [hY, hlast.2 hY, hb]
      · have : ¬ pos = a := fun e => hY (hlast.1 e)
        simp [hY, this]
    refine ⟨h.spliced pos b, ?_, ?_, Ring.nil _, hvals _ rfl⟩
    · have := splice_eval a true hpv hbv
      simp only [clist_spliceAfter, this, true_and]
      by_cases hpa : pos = a <;> simp [hpa, hb]
    · rw [hlast']
      have hs := Ring.splice hA hB hneB (by rw [← hL]; exact hdis)
      simpa using hs

/-- C8: for two well-formed lists `A` (non-empty) and `B` on disjoint nodes and `pos` the
node at traversal index `i` of `A`, `splice_after(A, pos, B)` leaves `A` with the
traversal `A[0..i]`, then the traversal of `B`, then `A[i+1..]`, values included, and `B`
empty; the back of `A` becomes the former back of `B` when `pos` was the back of `A` and
`B` was non-empty, and is unchanged otherwise. -/
theorem spliceAfter_partition {V : Type} (h : Heap V) (a b : Nat) (LA LB : List Nat)
    (i pos : Nat) (hA : Ring h a LA) (hB : Ring h b LB) (hdis : ∀ x ∈ LA, x ∉ LB)
    (hi : LA[i]? = some pos) :
    ∃ h', clist_spliceAfter h a pos b = .ok (h', (if pos = a ∧ b ≠ 0 then b else a), 0) ∧
      Ring h' (if pos = a ∧ b ≠ 0 then b else a) (LA.take (i + 1) ++ LB ++ LA.drop (i + 1)) ∧
      Ring h' 0 [] ∧
      values h' (LA.take (i + 1) ++ LB ++ LA.drop (i + 1)) =
        (values h LA).take (i + 1) ++ values h LB ++ (values h LA).drop (i + 1) :=
  spliceAfter_spec h a b LA LB i pos hA hB hdis hi

theorem spliceAfter_partition_witness :
    Ring pairHeap 2 [1, 2] ∧ Ring pairHeap 4 [3, 4] ∧ ([1, 2] : List Nat)[0]? = some 1 ∧
    ∃ h', clist_spliceAfter pairHeap 2 1 4 =
        .ok (h', (if (1 : Nat) = 2 ∧ (4 : Nat) ≠ 0 then 4 else 2), 0) ∧
      Ring h' (if (1 : Nat) = 2 ∧ (4 : Nat) ≠ 0 then 4 else 2)
        (([1, 2] : List Nat).take (0 + 1) ++ [3, 4] ++ ([1, 2] : List Nat).drop (0 + 1)) ∧
      Ring h' 0 [] ∧
      values h' (([1, 2] : List Nat).take (0 + 1) ++ [3, 4] ++
          ([1, 2] : List Nat).drop (0 + 1)) =
        (values pairHeap [1, 2]).take (0 + 1) ++ values pairHeap [3, 4] ++
          (values pairHeap [1, 2]).drop (0 + 1) :=
  ⟨pairHeap_ring_a, pairHeap_ring_b, by decide,
   spliceAfter_partition pairHeap 2 4 [1, 2] [3, 4] 0 1 pairHeap_ring_a pairHeap_ring_b
     (by decide) (by decide)⟩

/-- C9 (counterexample): on the non-empty list with nodes `1, 2, 3` and back node `3`,
`splice_after` at the end iterator (`pos.item == NULL`) with an empty `other` returns
normally with `self->last == NULL`: the list has lost its three nodes, so the call was
not a no-op. -/
theorem spliceAfter_end_iterator_not_noop :
    Ring demoHeap 3 [1, 2, 3] ∧
    clist_spliceAfter demoHeap 3 0 0 = .ok (demoHeap, 0, 0) ∧
    ¬ (∃ h', clist_spliceAfter demoHeap 3 0 0 = .ok (h', 3, 0)) := by
  refine ⟨demoHeap_ring, rfl, ?_⟩
  rintro ⟨h', e⟩
  have e2 : clist_spliceAfter demoHeap 3 0 0 = .ok (demoHeap, 0, 0) := rfl
  rw [e2] at e
  injection e with e3
  injection e3 with _ e4
  injection e4 with e5 _
  exact absurd e5 (by decide)

/-- C9 (amended): splicing an empty `other` is a no-op when `pos` is a node of `self`, or
the end iterator of an empty `self`: `splice_after(self, pos, other)` and
`splice_front(self, other)` return with the heap (links and values) and `self->last`
unchanged, so the traversal is unchanged, and `other` stays empty. -/
theorem splice_empty_noop {V : Type} (h : Heap V) (last pos : Nat) (L : List Nat)
    (hR : Ring h last L) (hpos : pos ∈ L ∨ (pos = 0 ∧ L = [])) :
    clist_spliceAfter h last pos 0 = .ok (h, last, 0) ∧
    clist_spliceFront h last 0 = .ok (h, last, 0) ∧ Ring h last L ∧ Ring h 0 [] := by
  refine ⟨?_, ?_, hR, Ring.nil h⟩
  · rcases hpos with hm | ⟨rfl, rfl⟩
    · have := (hR.2.1 pos hm).1
      simp [clist_spliceAfter, _clist_splice, this]
    · have : last = 0 := hR.nil_iff.1 rfl
      simp [clist_spliceAfter, _clist_splice, this]
  · by_cases hl : last = 0
    · simp [clist_spliceFront, clist_last, _clist_splice, hl]
    · simp [clist_spliceFront, clist_last, _clist_splice, hl]

theorem splice_empty_noop_witness :
    Ring demoHeap 3 [1, 2, 3] ∧
    (clist_spliceAfter demoHeap 3 2 0 = .ok (demoHeap, 3, 0) ∧
      clist_spliceFront demoHeap 3 0 = .ok (demoHeap, 3, 0) ∧ Ring demoHeap 3 [1, 2, 3] ∧
      Ring demoHeap 0 []) :=
  ⟨demoHeap_ring, splice_empty_noop demoHeap 3 2 [1, 2, 3] demoHeap_ring (Or.inl (by decide))⟩

/-- The scan of `findBefore` from a position whose remaining nodes `S1 ++ m :: S2` have
their first match at `m`: the result is the node before `m` (the carried `prev` when `m`
is the current node). -/
theorem findBeforeLoop_hit {V R : Type} (valueGetRaw : V → R) (valueCompareRaw : R → R → Int)
    {h : Heap V} {last : Nat} {L : List Nat} (hR : Ring h last L) (val : R) (m : Nat)
    (S2 : List Nat) (hm : valueCompareRaw (valueGetRaw (h.value m)) val = 0) :
    ∀ (S1 A : List Nat) (fuel : Nat), L = A ++ S1 ++ m :: S2 → S1.length < fuel →
      (∀ x ∈ S1, valueCompareRaw (valueGetRaw (h.value x)) val ≠ 0) →
      findBeforeLoop valueGetRaw valueCompareRaw h last val fuel (A.getLast?.getD last)
        ((S1 ++ m :: S2).headD 0) = .ok ((A ++ S1).getLast?.getD last) := by
  intro S1
  induction S1 with
  | nil =>
    intro A fuel hL hf _
    obtain ⟨f, rfl⟩ : ∃ f, fuel = f + 1 := ⟨fuel - 1, by simp at hf; omega⟩
    have hv : h.valid m := hR.2.1 m (by rw [hL]; simp)
    simp [findBeforeLoop, hv.1, rdValue_ok hv, hm]
  | cons x S1 ih =>
    intro A fuel hL hf hno
    obtain ⟨f, rfl⟩ : ∃ f, fuel = f + 1 := ⟨fuel - 1, by simp at hf; omega⟩
    have hv : h.valid x := hR.2.1 x (by rw [hL]; simp)
    have hx : valueCompareRaw (valueGetRaw (h.value x)) val ≠ 0 := hno x (by simp)
    have hR' : Ring h last (A ++ x :: (S1 ++ m :: S2)) := by rw [hL] at hR; simpa using hR
    have := ih (A ++ [x]) f (by simp [hL]) (by simp at hf; omega)
      (fun y hy => hno y (by simp [hy]))
    simp only [List.getLast?_concat, Option.getD_some] at this
    simp only [findBeforeLoop, List.cons_append, List.headD_cons, hv.1, ne_eq,
      not_false_eq_true, if_true, rdValue_ok hv, bind_ok, hx, if_false,
      clist_next_ring hR', this]
    simp

/-- The scan of `findBefore` over remaining nodes none of which matches ends with the
not-found marker. -/
theorem findBeforeLoop_miss {V R : Type} (valueGetRaw : V → R) (valueCompareRaw : R → R → Int)
    {h : Heap V} {last : Nat} {L : List Nat} (hR : Ring h last L) (val : R) :
    ∀ (S A : List Nat) (fuel prev : Nat), L = A ++ S → S.length < fuel →
      (∀ x ∈ S, valueCompareRaw (valueGetRaw (h.value x)) val ≠ 0) →
      findBeforeLoop valueGetRaw valueCompareRaw h last val fuel prev (S.headD 0) = .ok 0 := by
  intro S
  induction S with
  | nil =>
    intro A fuel prev _ hf _
    obtain ⟨f, rfl⟩ : ∃ f, fuel = f + 1 := ⟨fuel - 1, by simp at hf; omega⟩
    simp [findBeforeLoop]
  | cons x S ih =>
    intro A fuel prev hL hf hno
    obtain ⟨f, rfl⟩ : ∃ f, fuel = f + 1 := ⟨fuel - 1, by simp at hf; omega⟩
    have hv : h.valid x := hR.2.1 x (by rw [hL]; simp)
    have hx : valueCompareRaw (valueGetRaw (h.value x)) val ≠ 0 := hno x (by simp)
    have hR' : Ring h last (A ++ x :: S) := by rw [hL] at hR; exact hR
    have := ih (A ++ [x]) f x (by simp [hL]) (by simp at hf; omega)
      (fun y hy => hno y (by simp [hy]))
    simp only [findBeforeLoop, List.headD_cons, hv.1, ne_eq, not_false_eq_true, if_true,
      rdValue_ok hv, bind_ok, hx, if_false, clist_next_ring hR', this]

/-- The result of `findBefore` on a ring whose first match is `m`: the ring predecessor
of `m`. -/
theorem findBefore_hit {V R : Type} (valueGetRaw : V → R) (valueCompareRaw : R → R → Int)
    {h : Heap V} {last : Nat} {S1 S2 : List Nat} {m : Nat}
    (hR : Ring h last (S1 ++ m :: S2)) (val : R) {fuel : Nat} (hf : S1.length < fuel)
    (hm : valueCompareRaw (valueGetRaw (h.value m)) val = 0)
    (hno : ∀ x ∈ S1, valueCompareRaw (valueGetRaw (h.value x)) val ≠ 0) :
    clist_findBefore valueGetRaw valueCompareRaw fuel h last val =
      .ok (S1.getLast?.getD last) := by
  have := findBeforeLoop_hit valueGetRaw valueCompareRaw hR val m S2 hm S1 [] fuel (by simp)
    hf hno
  simp only [List.getLast?_nil, Option.getD_none, List.nil_append] at this
  simp only [clist_findBefore, clist_begin_ring hR, bind_ok, this]

theorem findBefore_miss {V R : Type} (valueGetRaw : V → R) (valueCompareRaw : R → R → Int)
    {h : Heap V} {last : Nat} {L : List Nat} (hR : Ring h last L) (val : R) {fuel : Nat}
    (hf : L.length < fuel)
    (hno : ∀ x ∈ L, valueCompareRaw (valueGetRaw (h.value x)) val ≠ 0) :
    clist_findBefore valueGetRaw valueCompareRaw fuel h last val = .ok 0 := by
  have := findBeforeLoop_miss valueGetRaw valueCompareRaw hR val L [] fuel last (by simp) hf hno
  simp only [clist_findBefore, clist_begin_ring hR, bind_ok, this]

/-- The effect of `remove` when the first match of the traversal is the node `m`:
`findBefore` returns the ring predecessor of `m` and `erase_after` removes `m`. -/
theorem remove_hit {V R : Type} (valueGetRaw : V → R) (valueCompareRaw : R → R → Int)
    {h : Heap V} {last : Nat} {S1 S2 : List Nat} {m : Nat}
    (hR : Ring h last (S1 ++ m :: S2)) (val : R) {fuel : Nat} (hf : S1.length < fuel)
    (hm : valueCompareRaw (valueGetRaw (h.value m)) val = 0)
    (hno : ∀ x ∈ S1, valueCompareRaw (valueGetRaw (h.value x)) val ≠ 0) :
    ∃ h' last', clist_remove valueGetRaw valueCompareRaw fuel h last val =
        .ok (h', last', S1.getLast?.getD last) ∧
      S1.getLast?.getD last ≠ 0 ∧ h.next (S1.getLast?.getD last) = m ∧
      Ring h' last' (S1 ++ S2) ∧ values h' (S1 ++ S2) = values h (S1 ++ S2) ∧
      h' = h.erased (S1.getLast?.getD last) := by
  have hfb := findBefore_hit valueGetRaw valueCompareRaw hR val hf hm hno
  have hne : S1 ++ m :: S2 ≠ [] := by simp
  rcases List.eq_nil_or_concat S1 with rfl | ⟨S1', b, hS1⟩
  · simp only [List.getLast?_nil, Option.getD_none, List.nil_append] at hfb hR ⊢
    have h0 := (hR.last_eq hne).2
    have hi : (m :: S2)[(m :: S2).length - 1]? = some last := by
      rw [← getLast?_eq_of_ring hR hne, List.getLast?_eq_getElem?]
    obtain ⟨h', e1, e2, e3, e4, e5⟩ := eraseAfter_spec hR hi
    have hmod : ((m :: S2).length - 1 + 1) % (m :: S2).length = 0 := by
      have : (m :: S2).length - 1 + 1 = (m :: S2).length := by simp
      rw [this, Nat.mod_self]
    rw [hmod] at e2 e3 e4
    have e2 : Ring h' (if (m :: S2).length = 1 then 0
        else if (m :: S2).length - 1 + 2 = (m :: S2).length then last else last) S2 := by
      simpa using e2
    have e3 : values h' S2 = values h S2 := by simpa [values] using e3
    refine ⟨h', _, ?_, h0, ?_, e2, ?_, e5⟩
    · simp only [clist_remove, hfb, bind_ok, h0, ne_eq, not_false_eq_true, if_true, e1]
      rfl
    · simpa using e4.symm
    · rw [e5]; rfl
  · rw [List.concat_eq_append] at hS1
    subst hS1
    simp only [List.getLast?_concat, Option.getD_some] at hfb ⊢
    have hbv : h.valid b := hR.2.1 b (by simp)
    have hi : (S1' ++ [b] ++ m :: S2)[S1'.length]? = some b := by
      rw [List.append_assoc, List.getElem?_append_right (Nat.le_refl _)]
      simp
    obtain ⟨h', e1, e2, e3, e4, e5⟩ := eraseAfter_spec hR hi
    have hlen : (S1' ++ [b] ++ m :: S2).length = S1'.length + S2.length + 2 := by
      simp; omega
    have hmod : (S1'.length + 1) % (S1' ++ [b] ++ m :: S2).length = S1'.length + 1 :=
      Nat.mod_eq_of_lt (by omega)
    rw [hmod] at e2 e3 e4
    have herase : (S1' ++ [b] ++ m :: S2).eraseIdx (S1'.length + 1) = S1' ++ [b] ++ S2 := by
      rw [List.eraseIdx_append_of_length_le (by simp)]
      simp
    rw [herase] at e2 e3
    refine ⟨h', _, ?_, hbv.1, ?_, e2, ?_, e5⟩
    · simp only [clist_remove, hfb, bind_ok, hbv.1, ne_eq, not_false_eq_true, if_true, e1]
      rfl
    · have : (S1' ++ [b] ++ m :: S2)[S1'.length + 1]? = some m := by
        rw [List.getElem?_append_right (by simp)]
        simp
      rw [this] at e4
      exact (Option.some.inj e4).symm
    · rw [e5]; rfl

/-- C10: on a well-formed list with at least one element whose raw key compares equal
to `key`, `remove(key)` returns normally and erases exactly the front-most such element:
the traversal afterwards, nodes and values, is the former one with its first match
erased (so every other element keeps its place in the order), and the length has
decreased by one. -/
theorem remove_erases_first_match {V R : Type} (valueGetRaw : V → R)
    (valueCompareRaw : R → R → Int) (fuel : Nat) (h : Heap V) (last : Nat) (L : List Nat)
    (key : R) (hR : Ring h last L) (hf : L.length < fuel)
    (hk : ∃ x ∈ L, valueCompareRaw (valueGetRaw (h.value x)) key = 0) :
    ∃ h' last' it, clist_remove valueGetRaw valueCompareRaw fuel h last key =
        .ok (h', last', it) ∧
      Ring h' last'
        (L.eraseP (fun x => decide (valueCompareRaw (valueGetRaw (h.value x)) key = 0))) ∧
      values h'
          (L.eraseP (fun x => decide (valueCompareRaw (valueGetRaw (h.value x)) key = 0))) =
        (values h L).eraseP (fun v => decide (valueCompareRaw (valueGetRaw v) key = 0)) ∧
      (L.eraseP (fun x => decide (valueCompareRaw (valueGetRaw (h.value x)) key = 0))).length
        + 1 = L.length := by
  obtain ⟨x, hx, hpx⟩ := hk
  obtain ⟨m, S1, S2, hno, hm, hL, herase⟩ :=
    @List.exists_of_eraseP _
      (fun x => decide (valueCompareRaw (valueGetRaw (h.value x)) key = 0)) L x hx
      (by simpa using hpx)
  have hvals : (values h L).eraseP (fun v => decide (valueCompareRaw (valueGetRaw v) key = 0)) =
      values h (S1 ++ S2) := by
    rw [values, List.eraseP_map, values]
    congr 1
  rw [herase, hvals]
  rw [hL] at hR
  obtain ⟨h', last', e1, _, _, e2, e3, _⟩ := remove_hit valueGetRaw valueCompareRaw hR key
    (show S1.length < fuel by rw [hL] at hf; simp at hf; omega) (by simpa using hm)
    (fun y hy => by simpa using hno y hy)
  exact ⟨h', last', _, e1, e2, e3, by rw [hL]; simp; omega⟩

theorem remove_erases_first_match_witness :
    Ring demoHeap 3 [1, 2, 3] ∧
    (∃ x ∈ [1, 2, 3], natCmp (demoHeap.value x / 4) 1 = 0) ∧
    ∃ h' last' it, clist_remove (fun v => v / 4) natCmp 4 demoHeap 3 1 = .ok (h', last', it) ∧
      Ring h' last'
        (([1, 2, 3] : List Nat).eraseP (fun x => decide (natCmp (demoHeap.value x / 4) 1 = 0))) ∧
      values h'
          (([1, 2, 3] : List Nat).eraseP
            (fun x => decide (natCmp (demoHeap.value x / 4) 1 = 0))) =
        (values demoHeap [1, 2, 3]).eraseP (fun v => decide (natCmp (v / 4) 1 = 0)) ∧
      (([1, 2, 3] : List Nat).eraseP
        (fun x => decide (natCmp (demoHeap.value x / 4) 1 = 0))).length + 1 =
        ([1, 2, 3] : List Nat).length :=
  ⟨demoHeap_ring, ⟨1, by decide, by decide⟩,
   remove_erases_first_match (fun v => v / 4) natCmp 4 demoHeap 3 [1, 2, 3] 1 demoHeap_ring
     (by decide) ⟨1, by decide, by decide⟩⟩

theorem traverseLoop_ring {V : Type} {h : Heap V} {last : Nat} {L : List Nat}
    (hR : Ring h last L) : ∀ (S A : List Nat) (fuel : Nat), L = A ++ S → S.length < fuel →
      traverseLoop h last fuel (S.headD 0) = .ok S := by
  intro S
  induction S with
  | nil =>
    intro A fuel _ hf
    obtain ⟨f, rfl⟩ : ∃ f, fuel = f + 1 := ⟨fuel - 1, by simp at hf; omega⟩
    simp [traverseLoop]
  | cons x S ih =>
    intro A fuel hL hf
    obtain ⟨f, rfl⟩ : ∃ f, fuel = f + 1 := ⟨fuel - 1, by simp at hf; omega⟩
    have hv : h.valid x := hR.2.1 x (by rw [hL]; simp)
    have hR' : Ring h last (A ++ x :: S) := by rw [hL] at hR; exact hR
    have := ih (A ++ [x]) f (by simp [hL]) (by simp at hf; omega)
    simp only [traverseLoop, List.headD_cons, hv.1, ne_eq, not_false_eq_true, if_true,
      clist_next_ring hR', bind_ok, this, pure_eq_ok]

/-- The traversal from `begin` by `next` visits exactly the nodes `L` of a ring, in
order, and then reaches the end marker. -/
theorem clist_nodes_ring {V : Type} {h : Heap V} {last : Nat} {L : List Nat}
    (hR : Ring h last L) {fuel : Nat} (hf : L.length < fuel) :
    clist_nodes fuel h last = .ok L := by
  simp only [clist_nodes, clist_begin_ring hR, bind_ok]
  exact traverseLoop_ring hR L [] fuel rfl hf

/-- A list handle is a ring in one way only: its traversal is determined. -/
theorem Ring.unique {V : Type} {h : Heap V} {last : Nat} {L L' : List Nat}
    (hR : Ring h last L) (hR' : Ring h last L') : L = L' := by
  have h1 := clist_nodes_ring hR (Nat.lt_succ_of_le (Nat.le_max_left L.length L'.length))
  have h2 := clist_nodes_ring hR' (Nat.lt_succ_of_le (Nat.le_max_right L.length L'.length))
  rw [h1] at h2
  exact Except.ok.inj h2

theorem readValues_ok {V : Type} {h : Heap V} : ∀ {M : List Nat}, (∀ x ∈ M, h.valid x) →
    readValues h M = .ok (values h M)
  | [], _ => rfl
  | x :: M, hv => by
    have h1 := rdValue_ok (hv x (by simp))
    have h2 := readValues_ok (M := M) (fun y hy => hv y (by simp [hy]))
    simp [readValues, h1, h2, values]

theorem clist_toList_ring {V : Type} {h : Heap V} {last : Nat} {L : List Nat}
    (hR : Ring h last L) {fuel : Nat} (hf : L.length < fuel) :
    clist_toList fuel h last = .ok (values h L) := by
  simp only [clist_toList, clist_nodes_ring hR hf, bind_ok, readValues_ok hR.2.1]

/-- Scenario of the tests: `push_back(1, 2, 3)` gives `[1, 2, 3]`, then `pop_front()`
gives `[2, 3]`, then `push_front(0)` gives `[0, 2, 3]`. -/
theorem scenario_push_pop :
    (do let (h, l) ← clist_pushN (Heap.empty 0) clist_init [1, 2, 3]
        let t1 ← clist_toList 9 h l
        let (h, l) ← clist_popFront h l
        let t2 ← clist_toList 9 h l
        let (h, l) ← clist_pushFront h l 0
        let t3 ← clist_toList 9 h l
        pure (t1, t2, t3)) = Except.ok ([1, 2, 3], [2, 3], [0, 2, 3]) := by
  rfl

set_option maxRecDepth 4000 in
set_option maxHeartbeats 4000000 in
/-- Scenario of the tests: `[5, 3, 4, 1, 2]` built by `push_back`, sorted ascending, is
`[1, 2, 3, 4, 5]`. -/
theorem scenario_sort :
    (do let (h, l) ← clist_pushN (Heap.empty 0) clist_init [5, 3, 4, 1, 2]
        let (h, l) ← clist_sort id natCmp 9 h l
        clist_toList 9 h l).toOption = some [1, 2, 3, 4, 5] := by
  decide

/-- Scenario of the tests: `A = [1, 2]`, `B = [3, 4]`; `splice_front(A, B)` gives
`A = [3, 4, 1, 2]` and `B = []`. -/
theorem scenario_splice_front :
    (do let (h, a) ← clist_pushN (Heap.empty 0) clist_init [1, 2]
        let (h, b) ← clist_pushN h clist_init [3, 4]
        let (h, a, b) ← clist_spliceFront h a b
        let ta ← clist_toList 9 h a
        let tb ← clist_toList 9 h b
        pure (ta, tb)) = Except.ok ([3, 4, 1, 2], []) := by
  rfl

/-- In a ring, the node before `m` in the traversal (the back node when `m` is the
front) is valid and links to `m`. -/
theorem Ring.pred_next {V : Type} {h : Heap V} {last : Nat} {S1 S2 : List Nat} {m : Nat}
    (hR : Ring h last (S1 ++ m :: S2)) :
    h.valid (S1.getLast?.getD last) ∧ h.next (S1.getLast?.getD last) = m := by
  have hne : S1 ++ m :: S2 ≠ [] := by simp
  rcases List.eq_nil_or_concat S1 with rfl | ⟨S1', b, hS1⟩
  · simp only [List.getLast?_nil, Option.getD_none]
    refine ⟨hR.2.1 last (hR.mem_last hne), ?_⟩
    have := hR.2.2.2.2 hne
    simpa using this
  · rw [List.concat_eq_append] at hS1
    subst hS1
    simp only [List.getLast?_concat, Option.getD_some]
    refine ⟨hR.2.1 b (by simp), ?_⟩
    have hR' : Ring h last (S1' ++ b :: m :: S2) := by simpa using hR
    exact hR'.next_of_split.1

/-- The first match of a list that has one: the traversal splits around it. -/
theorem first_match_split {V R : Type} (valueGetRaw : V → R) (valueCompareRaw : R → R → Int)
    (h : Heap V) (key : R) {L : List Nat}
    (hk : ∃ x ∈ L, valueCompareRaw (valueGetRaw (h.value x)) key = 0) :
    ∃ S1 m S2, L = S1 ++ m :: S2 ∧
      (∀ x ∈ S1, valueCompareRaw (valueGetRaw (h.value x)) key ≠ 0) ∧
      valueCompareRaw (valueGetRaw (h.value m)) key = 0 ∧
      L.eraseP (fun x => decide (valueCompareRaw (valueGetRaw (h.value x)) key = 0)) =
        S1 ++ S2 := by
  obtain ⟨x, hx, hpx⟩ := hk
  obtain ⟨m, S1, S2, hno, hm, hL, herase⟩ :=
    @List.exists_of_eraseP _
      (fun x => decide (valueCompareRaw (valueGetRaw (h.value x)) key = 0)) L x hx
      (by simpa using hpx)
  exact ⟨S1, m, S2, hL, fun y hy => by simpa using hno y hy, by simpa using hm, herase⟩

theorem find_hit {V R : Type} (valueGetRaw : V → R) (valueCompareRaw : R → R → Int)
    {h : Heap V} {last : Nat} {S1 S2 : List Nat} {m : Nat}
    (hR : Ring h last (S1 ++ m :: S2)) (val : R) {fuel : Nat} (hf : S1.length < fuel)
    (hm : valueCompareRaw (valueGetRaw (h.value m)) val = 0)
    (hno : ∀ x ∈ S1, valueCompareRaw (valueGetRaw (h.value x)) val ≠ 0) :
    clist_find valueGetRaw valueCompareRaw fuel h last val = .ok (some (h.value m)) := by
  have hfb := findBefore_hit valueGetRaw valueCompareRaw hR val hf hm hno
  obtain ⟨hv, hn⟩ := hR.pred_next
  have hmv : h.valid m := hR.2.1 m (by simp)
  simp only [clist_find, hfb, bind_ok, hv.1, ne_eq, not_false_eq_true, if_true, rdNext_ok hv,
    hn, rdValue_ok hmv, pure_eq_ok]

theorem find_miss {V R : Type} (valueGetRaw : V → R) (valueCompareRaw : R → R → Int)
    {h : Heap V} {last : Nat} {L : List Nat} (hR : Ring h last L) (val : R) {fuel : Nat}
    (hf : L.length < fuel)
    (hno : ∀ x ∈ L, valueCompareRaw (valueGetRaw (h.value x)) val ≠ 0) :
    clist_find valueGetRaw valueCompareRaw fuel h last val = .ok none := by
  have hfb := findBefore_miss valueGetRaw valueCompareRaw hR val hf hno
  simp [clist_find, hfb]

/-- C11: on a well-formed list, when no element's raw key compares equal to `key` (in
particular on the empty list) `find_before` returns the not-found marker and `find`
returns not-found; when the front-most match is the node `m`, `find_before` returns the
ring predecessor of `m`, a node of the list that links to `m` and is the back node when
`m` is the front, and `find` returns the value of `m`. -/
theorem find_front_most_match {V R : Type} (valueGetRaw : V → R)
    (valueCompareRaw : R → R → Int) (fuel : Nat) (h : Heap V) (last : Nat) (L : List Nat)
    (key : R) (hR : Ring h last L) (hf : L.length < fuel) :
    ((∀ x ∈ L, valueCompareRaw (valueGetRaw (h.value x)) key ≠ 0) →
      clist_findBefore valueGetRaw valueCompareRaw fuel h last key = .ok 0 ∧
      clist_find valueGetRaw valueCompareRaw fuel h last key = .ok none) ∧
    (∀ S1 m S2, L = S1 ++ m :: S2 →
      (∀ x ∈ S1, valueCompareRaw (valueGetRaw (h.value x)) key ≠ 0) →
      valueCompareRaw (valueGetRaw (h.value m)) key = 0 →
      ∃ it, clist_findBefore valueGetRaw valueCompareRaw fuel h last key = .ok it ∧
        it ≠ 0 ∧ it ∈ L ∧ h.next it = m ∧ it = S1.getLast?.getD last ∧
        clist_find valueGetRaw valueCompareRaw fuel h last key = .ok (some (h.value m))) := by
  refine ⟨fun hno => ⟨findBefore_miss _ _ hR key hf hno, find_miss _ _ hR key hf hno⟩, ?_⟩
  intro S1 m S2 hL hno hm
  subst hL
  have hf1 : S1.length < fuel := by simp at hf; omega
  obtain ⟨hv, hn⟩ := hR.pred_next
  refine ⟨_, findBefore_hit _ _ hR key hf1 hm hno, hv.1, ?_, hn, rfl,
    find_hit _ _ hR key hf1 hm hno⟩
  rcases List.eq_nil_or_concat S1 with rfl | ⟨S1', b, hS1⟩
  · simpa using hR.mem_last (by simp)
  · rw [List.concat_eq_append] at hS1
    subst hS1
    simp

theorem find_front_most_match_witness :
    Ring demoHeap 3 [1, 2, 3] ∧
    (((∀ x ∈ [1, 2, 3], natCmp (demoHeap.value x / 4) 1 ≠ 0) →
      clist_findBefore (fun v => v / 4) natCmp 4 demoHeap 3 1 = .ok 0 ∧
      clist_find (fun v => v / 4) natCmp 4 demoHeap 3 1 = .ok none) ∧
    (∀ S1 m S2, [1, 2, 3] = S1 ++ m :: S2 →
      (∀ x ∈ S1, natCmp (demoHeap.value x / 4) 1 ≠ 0) →
      natCmp (demoHeap.value m / 4) 1 = 0 →
      ∃ it, clist_findBefore (fun v => v / 4) natCmp 4 demoHeap 3 1 = .ok it ∧
        it ≠ 0 ∧ it ∈ [1, 2, 3] ∧ demoHeap.next it = m ∧ it = S1.getLast?.getD 3 ∧
        clist_find (fun v => v / 4) natCmp 4 demoHeap 3 1 = .ok (some (demoHeap.value m)))) :=
  ⟨demoHeap_ring,
   find_front_most_match (fun v => v / 4) natCmp 4 demoHeap 3 [1, 2, 3] 1 demoHeap_ring
     (by decide)⟩

/-- The result of `remove`: a miss changes nothing, a hit erases the front-most match. -/
theorem remove_spec {V R : Type} (valueGetRaw : V → R) (valueCompareRaw : R → R → Int)
    (fuel : Nat) (h : Heap V) (last : Nat) (L : List Nat) (key : R)
    (hR : Ring h last L) (hf : L.length < fuel) :
    ∃ h' last' it, clist_remove valueGetRaw valueCompareRaw fuel h last key =
        .ok (h', last', it) ∧
      (it = 0 ↔ ∀ x ∈ L, valueCompareRaw (valueGetRaw (h.value x)) key ≠ 0) ∧
      (it = 0 → h' = h ∧ last' = last) ∧
      (it ≠ 0 → ∃ S1 m S2, L = S1 ++ m :: S2 ∧
        (∀ x ∈ S1, valueCompareRaw (valueGetRaw (h.value x)) key ≠ 0) ∧
        valueCompareRaw (valueGetRaw (h.value m)) key = 0 ∧
        it = S1.getLast?.getD last ∧ it ∈ L ∧ h.next it = m ∧
        Ring h' last' (S1 ++ S2) ∧ values h' (S1 ++ S2) = values h (S1 ++ S2)) := by
  by_cases hk : ∃ x ∈ L, valueCompareRaw (valueGetRaw (h.value x)) key = 0
  · obtain ⟨S1, m, S2, hL, hno, hm, _⟩ := first_match_split valueGetRaw valueCompareRaw h key hk
    subst hL
    have hf1 : S1.length < fuel := by simp at hf; omega
    obtain ⟨h', last', e1, e2, e3, e4, e5, _⟩ :=
      remove_hit valueGetRaw valueCompareRaw hR key hf1 hm hno
    have hmem : S1.getLast?.getD last ∈ S1 ++ m :: S2 := by
      rcases List.eq_nil_or_concat S1 with rfl | ⟨S1', b, hS1⟩
      · simpa using hR.mem_last (by simp)
      · rw [List.concat_eq_append] at hS1
        subst hS1
        simp
    refine ⟨h', last', _, e1, ?_, fun e => absurd e e2, fun _ =>
      ⟨S1, m, S2, rfl, hno, hm, rfl, hmem, e3, e4, e5⟩⟩
    constructor
    · intro e; exact absurd e e2
    · intro hall; exact absurd hm (hall m (by simp))
  · have hno : ∀ x ∈ L, valueCompareRaw (valueGetRaw (h.value x)) key ≠ 0 :=
      fun x hx e => hk ⟨x, hx, e⟩
    have hfb := findBefore_miss valueGetRaw valueCompareRaw hR key hf hno
    refine ⟨h, last, 0, by simp [clist_remove, hfb], ?_, fun _ => ⟨rfl, rfl⟩,
      fun e => absurd rfl e⟩
    exact ⟨fun _ => hno, fun _ => rfl⟩

/-- C12: on a well-formed list `remove(key)` returns normally; it returns the not-found
marker exactly when no element has a raw key comparing equal to `key`, and then the heap
(links and values) and the last reference are unchanged; on a hit the returned position
is the node that preceded the removed node `m`, the front-most match, and the traversal
afterwards is the former one without `m`. -/
theorem remove_result {V R : Type} (valueGetRaw : V → R) (valueCompareRaw : R → R → Int)
    (fuel : Nat) (h : Heap V) (last : Nat) (L : List Nat) (key : R)
    (hR : Ring h last L) (hf : L.length < fuel) :
    ∃ h' last' it, clist_remove valueGetRaw valueCompareRaw fuel h last key =
        .ok (h', last', it) ∧
      (it = 0 ↔ ∀ x ∈ L, valueCompareRaw (valueGetRaw (h.value x)) key ≠ 0) ∧
      (it = 0 → h' = h ∧ last' = last) ∧
      (it ≠ 0 → ∃ S1 m S2, L = S1 ++ m :: S2 ∧
        (∀ x ∈ S1, valueCompareRaw (valueGetRaw (h.value x)) key ≠ 0) ∧
        valueCompareRaw (valueGetRaw (h.value m)) key = 0 ∧
        it = S1.getLast?.getD last ∧ it ∈ L ∧ h.next it = m ∧
        Ring h' last' (S1 ++ S2) ∧ values h' (S1 ++ S2) = values h (S1 ++ S2)) :=
  remove_spec valueGetRaw valueCompareRaw fuel h last L key hR hf

theorem remove_result_witness :
    Ring demoHeap 3 [1, 2, 3] ∧
    ∃ h' last' it, clist_remove (fun v => v / 4) natCmp 4 demoHeap 3 1 = .ok (h', last', it) ∧
      (it = 0 ↔ ∀ x ∈ [1, 2, 3], natCmp (demoHeap.value x / 4) 1 ≠ 0) ∧
      (it = 0 → h' = demoHeap ∧ last' = 3) ∧
      (it ≠ 0 → ∃ S1 m S2, [1, 2, 3] = S1 ++ m :: S2 ∧
        (∀ x ∈ S1, natCmp (demoHeap.value x / 4) 1 ≠ 0) ∧
        natCmp (demoHeap.value m / 4) 1 = 0 ∧
        it = S1.getLast?.getD 3 ∧ it ∈ [1, 2, 3] ∧ demoHeap.next it = m ∧
        Ring h' last' (S1 ++ S2) ∧ values h' (S1 ++ S2) = values demoHeap (S1 ++ S2)) :=
  ⟨demoHeap_ring,
   remove_result (fun v => v / 4) natCmp 4 demoHeap 3 [1, 2, 3] 1 demoHeap_ring (by decide)⟩

theorem Ring.index_last {V : Type} {h : Heap V} {last : Nat} {L : List Nat}
    (hR : Ring h last L) {i pos : Nat} (hi : L[i]? = some pos) :
    i < L.length ∧ (pos = last ↔ i + 1 = L.length) := by
  obtain ⟨A, C, hL, hA⟩ := split_at_index L i pos hi
  subst hL
  have hl := hR.last_iff
  have hlen : (A ++ pos :: C).length = i + 1 + C.length := by simp [hA]; omega
  refine ⟨by omega, ?_⟩
  rw [hl, hlen]
  constructor
  · intro e; subst e; simp
  · intro e; exact List.length_eq_zero.1 (by omega)

/-- C16: on a well-formed list of `n` nodes, `erase_after(pos)` for `pos` the node at
traversal index `i` returns normally and removes exactly the node at index
`(i + 1) mod n`, every other node and value keeping its place in the order. If `n = 1`
the list becomes empty (`last` is `NULL`); if the removed node was the back, `pos` is the
new back; if `pos` is the back, the front is removed and the back is unchanged, and the
call is `pop_front`; otherwise the back is unchanged. -/
theorem eraseAfter_removes_next {V : Type} (h : Heap V) (last : Nat) (L : List Nat)
    (i pos : Nat) (hR : Ring h last L) (hi : L[i]? = some pos) :
    ∃ h' last', clist_eraseAfter h last pos = .ok (h', last') ∧
      Ring h' last' (L.eraseIdx ((i + 1) % L.length)) ∧
      values h' (L.eraseIdx ((i + 1) % L.length)) =
        (values h L).eraseIdx ((i + 1) % L.length) ∧
      (L.length = 1 → last' = 0 ∧ L.eraseIdx ((i + 1) % L.length) = []) ∧
      (1 < L.length → (i + 1) % L.length = L.length - 1 → last' = pos) ∧
      (1 < L.length → pos = last → (i + 1) % L.length = 0 ∧ last' = last ∧
        clist_popFront h last = .ok (h', last')) ∧
      (1 < L.length → (i + 1) % L.length ≠ L.length - 1 → last' = last) := by
  obtain ⟨h', e1, e2, e3, _, _⟩ := eraseAfter_spec hR hi
  obtain ⟨hlt, hlast⟩ := hR.index_last hi
  refine ⟨h', _, e1, e2, e3, ?_, ?_, ?_, ?_⟩
  · intro h1
    refine ⟨by simp [h1], ?_⟩
    have hi0 : i = 0 := by omega
    subst hi0
    obtain ⟨a, ha⟩ := List.length_eq_one.1 h1
    subst ha
    simp
  · intro h1 hmod
    have hn1 : ¬ L.length = 1 := by omega
    have : i + 2 = L.length := by
      by_cases hc : i + 1 < L.length
      · rw [Nat.mod_eq_of_lt hc] at hmod; omega
      · have : i + 1 = L.length := by omega
        rw [this, Nat.mod_self] at hmod; omega
    simp [hn1, this]
  · intro h1 hp
    have hi1 : i + 1 = L.length := hlast.1 hp
    have hn1 : ¬ L.length = 1 := by omega
    have hn2 : ¬ i + 2 = L.length := by omega
    refine ⟨by rw [hi1, Nat.mod_self], by simp [hn1, hn2], ?_⟩
    rw [← hp] at e1 ⊢
    exact e1
  · intro h1 hmod
    have hn1 : ¬ L.length = 1 := by omega
    have hn2 : ¬ i + 2 = L.length := by
      intro e
      apply hmod
      rw [Nat.mod_eq_of_lt (by omega)]; omega
    simp [hn1, hn2]

theorem eraseAfter_removes_next_witness :
    Ring demoHeap 3 [1, 2, 3] ∧ ([1, 2, 3] : List Nat)[1]? = some 2 ∧
    ∃ h' last', clist_eraseAfter demoHeap 3 2 = .ok (h', last') ∧
      Ring h' last' (([1, 2, 3] : List Nat).eraseIdx ((1 + 1) % ([1, 2, 3] : List Nat).length)) ∧
      values h' (([1, 2, 3] : List Nat).eraseIdx ((1 + 1) % ([1, 2, 3] : List Nat).length)) =
        (values demoHeap [1, 2, 3]).eraseIdx ((1 + 1) % ([1, 2, 3] : List Nat).length) ∧
      (([1, 2, 3] : List Nat).length = 1 → last' = 0 ∧
        ([1, 2, 3] : List Nat).eraseIdx ((1 + 1) % ([1, 2, 3] : List Nat).length) = []) ∧
      (1 < ([1, 2, 3] : List Nat).length →
        (1 + 1) % ([1, 2, 3] : List Nat).length = ([1, 2, 3] : List Nat).length - 1 →
        last' = 2) ∧
      (1 < ([1, 2, 3] : List Nat).length → 2 = 3 →
        (1 + 1) % ([1, 2, 3] : List Nat).length = 0 ∧ last' = 3 ∧
        clist_popFront demoHeap 3 = .ok (h', last')) ∧
      (1 < ([1, 2, 3] : List Nat).length →
        (1 + 1) % ([1, 2, 3] : List Nat).length ≠ ([1, 2, 3] : List Nat).length - 1 →
        last' = 3) :=
  ⟨demoHeap_ring, by decide,
   eraseAfter_removes_next demoHeap 3 [1, 2, 3] 1 2 demoHeap_ring (by decide)⟩

/-- The effect of `insert_after(pos, v)` for `pos` the node at traversal index `i`: the
new node `brk + 1` stands right after `pos` and is the new back exactly when `pos` was
the back. -/
theorem insertAfter_spec {V : Type} {h : Heap V} {last : Nat} {L : List Nat}
    (hR : Ring h last L) {i pos : Nat} (hi : L[i]? = some pos) (v : V) :
    clist_insertAfter h last pos v =
      .ok (h.inserted pos v, if pos = last then h.brk + 1 else last) ∧
    Ring (h.inserted pos v) (if pos = last then h.brk + 1 else last)
      (L.take (i + 1) ++ [h.brk + 1] ++ L.drop (i + 1)) ∧
    values (h.inserted pos v) (L.take (i + 1) ++ [h.brk + 1] ++ L.drop (i + 1)) =
      (values h L).take (i + 1) ++ [v] ++ (values h L).drop (i + 1) := by
  obtain ⟨A, B, hL, hA⟩ := split_at_index L i pos hi
  have hne : L ≠ [] := by rw [hL]; simp
  have hl0 := (hR.last_eq hne).2
  have hpv : h.valid pos := hR.2.1 pos (by rw [hL]; simp)
  have htake : L.take (i + 1) = A ++ [pos] := by
    rw [hL, ← hA]
    have e : A ++ pos :: B = (A ++ [pos]) ++ B := by simp
    rw [e, List.take_left' (by simp)]
  have hdrop : L.drop (i + 1) = B := by
    rw [hL, ← hA]
    have e : A ++ pos :: B = (A ++ [pos]) ++ B := by simp
    rw [e, List.drop_left' (by simp)]
  have hR' := hR
  rw [hL] at hR'
  have hlast := hR'.last_iff
  have hif : (if pos = last then h.brk + 1 else last) = (if B = [] then h.brk + 1 else last) := by
    by_cases hB : B = []
    · simp [hB, hlast.2 hB]
    · have : ¬ pos = last := fun e => hB (hlast.1 e)
      simp [hB, this]
  refine ⟨?_, ?_, ?_⟩
  · simp only [clist_insertAfter, insertAfter_eval v hpv hl0, bind_ok, hl0, false_or,
      pure_eq_ok]
  · rw [htake, hdrop, hif]
    simpa using Ring.insert hR' v
  · have h1 : values (h.inserted pos v) (L.take (i + 1)) = (values h L).take (i + 1) := by
      rw [values_inserted pos v (fun x hx => hR.2.1 x (List.mem_of_mem_take hx))]
      simp [values, List.map_take]
    have h2 : values (h.inserted pos v) (L.drop (i + 1)) = (values h L).drop (i + 1) := by
      rw [values_inserted pos v (fun x hx => hR.2.1 x (List.mem_of_mem_drop hx))]
      simp [values, List.map_drop]
    have h3 : values (h.inserted pos v) [h.brk + 1] = [v] := by
      have hne' : h.brk + 1 ≠ pos := by have := hpv.2.1; omega
      simp [values, Heap.inserted]
    simp only [values, List.map_append] at h1 h2 h3 ⊢
    rw [h1, h2, h3]

/-- The effect of `insert_after` at the end iterator of the empty list: the new node is
the only node and links to itself. -/
theorem insertAfter_empty {V : Type} (h : Heap V) (v : V) :
    clist_insertAfter h 0 0 v = .ok (h.insertedFirst v, h.brk + 1) ∧
    Ring (h.insertedFirst v) (h.brk + 1) [h.brk + 1] ∧
    (h.insertedFirst v).next (h.brk + 1) = h.brk + 1 ∧
    values (h.insertedFirst v) [h.brk + 1] = [v] := by
  refine ⟨?_, Ring.insertFirst h v, by simp [Heap.insertedFirst],
    by simp [values, Heap.insertedFirst]⟩
  simp [clist_insertAfter, insertAfter_eval_empty]

/-- C15: on a well-formed list with traversal `t`, `insert_after(pos, v)` with `pos` the
node at index `i` returns normally with the traversal `t[0..i] ++ [v] ++ t[i+1..]`
(nodes and values); the back reference becomes the new node exactly when `pos` was the
back and is otherwise unchanged, and `insert_after` at the back is `push_back`; on the
empty list `insert_after` with the end iterator yields the one-element list `[v]` whose
node links to itself. -/
theorem insertAfter_places_after_pos {V : Type} (h : Heap V) (last : Nat) (L : List Nat)
    (v : V) (hR : Ring h last L) :
    (∀ i pos, L[i]? = some pos →
      ∃ h', clist_insertAfter h last pos v =
          .ok (h', if pos = last then h.brk + 1 else last) ∧
        Ring h' (if pos = last then h.brk + 1 else last)
          (L.take (i + 1) ++ [h.brk + 1] ++ L.drop (i + 1)) ∧
        values h' (L.take (i + 1) ++ [h.brk + 1] ++ L.drop (i + 1)) =
          (values h L).take (i + 1) ++ [v] ++ (values h L).drop (i + 1)) ∧
    clist_insertAfter h last last v = clist_pushBack h last v ∧
    (L = [] → ∃ h', clist_insertAfter h last 0 v = .ok (h', h.brk + 1) ∧
      Ring h' (h.brk + 1) [h.brk + 1] ∧ h'.next (h.brk + 1) = h.brk + 1 ∧
      values h' [h.brk + 1] = [v]) := by
  refine ⟨?_, ?_, ?_⟩
  · intro i pos hi
    obtain ⟨e1, e2, e3⟩ := insertAfter_spec hR hi v
    exact ⟨_, e1, e2, e3⟩
  · simp only [clist_insertAfter, clist_pushBack, or_true, if_true]
  · intro hL
    subst hL
    have hl : last = 0 := hR.nil_iff.1 rfl
    subst hl
    obtain ⟨e1, e2, e3, e4⟩ := insertAfter_empty h v
    exact ⟨_, e1, e2, e3, e4⟩

theorem insertAfter_places_after_pos_witness :
    Ring demoHeap 3 [1, 2, 3] ∧
    ((∀ i pos, ([1, 2, 3] : List Nat)[i]? = some pos →
      ∃ h', clist_insertAfter demoHeap 3 pos 9 =
          .ok (h', if pos = 3 then demoHeap.brk + 1 else 3) ∧
        Ring h' (if pos = 3 then demoHeap.brk + 1 else 3)
          (([1, 2, 3] : List Nat).take (i + 1) ++ [demoHeap.brk + 1] ++
            ([1, 2, 3] : List Nat).drop (i + 1)) ∧
        values h' (([1, 2, 3] : List Nat).take (i + 1) ++ [demoHeap.brk + 1] ++
            ([1, 2, 3] : List Nat).drop (i + 1)) =
          (values demoHeap [1, 2, 3]).take (i + 1) ++ [9] ++
            (values demoHeap [1, 2, 3]).drop (i + 1)) ∧
    clist_insertAfter demoHeap 3 3 9 = clist_pushBack demoHeap 3 9 ∧
    (([1, 2, 3] : List Nat) = [] →
      ∃ h', clist_insertAfter demoHeap 3 0 9 = .ok (h', demoHeap.brk + 1) ∧
        Ring h' (demoHeap.brk + 1) [demoHeap.brk + 1] ∧
        h'.next (demoHeap.brk + 1) = demoHeap.brk + 1 ∧
        values h' [demoHeap.brk + 1] = [9])) :=
  ⟨demoHeap_ring, insertAfter_places_after_pos demoHeap 3 [1, 2, 3] 9 demoHeap_ring⟩

/-- The effect of `destroy` on a ring: every node is popped from the front, its value
recorded by the destructor, and the list ends empty. -/
theorem destroy_spec {V : Type} (L : List Nat) :
    ∀ (fuel : Nat) (h : Heap V) (last : Nat), Ring h last L → L.length < fuel →
      ∃ h', clist_destroy fuel h last = .ok (h', 0) ∧ Ring h' 0 [] ∧
        h'.log = h.log ++ values h L ∧ (L = [] → h' = h) := by
  induction L with
  | nil =>
    intro fuel h last hR hf
    have hl : last = 0 := hR.nil_iff.1 rfl
    subst hl
    obtain ⟨f, rfl⟩ : ∃ f, fuel = f + 1 := ⟨fuel - 1, by simp at hf; omega⟩
    exact ⟨h, by simp [clist_destroy], hR, by simp [values], fun _ => rfl⟩
  | cons x L ih =>
    intro fuel h last hR hf
    obtain ⟨f, rfl⟩ : ∃ f, fuel = f + 1 := ⟨fuel - 1, by simp at hf; omega⟩
    have hne : x :: L ≠ [] := by simp
    obtain ⟨hlast, hl0⟩ := hR.last_eq hne
    have hi : (x :: L)[L.length]? = some last := by
      have h1 : (x :: L).getLast? = some last := by
        rw [hR.2.2.2.1]; simp [hl0]
      rw [List.getLast?_eq_getElem?] at h1
      simpa using h1
    obtain ⟨h1, e1, e2, _, e4, e5⟩ := eraseAfter_spec hR hi
    have hmod : (L.length + 1) % (x :: L).length = 0 := by simp
    rw [hmod] at e2 e4
    simp only [List.eraseIdx_cons_zero] at e2
    simp only [List.getElem?_cons_zero, Option.some.injEq] at e4
    have hnot : ¬ L.length + 2 = (x :: L).length := by simp
    simp only [hnot, if_false] at e1 e2
    obtain ⟨h', d1, d2, d3, _⟩ := ih f h1 _ e2 (by simp at hf; omega)
    refine ⟨h', ?_, d2, ?_, by simp⟩
    · simp only [clist_destroy, hl0, ne_eq, not_false_eq_true, if_true, clist_popFront]
      simp only [clist_eraseAfter] at e1
      rw [e1]
      simpa using d1
    · rw [d3, e5]
      simp [Heap.erased, values, ← e4]

/-- C14: on a well-formed list `destroy` returns normally, the destructor calls it
records are exactly the values of the former traversal, once each in front-to-back
order, and the list is left empty; on an empty list it records nothing and changes
nothing. -/
theorem destroy_calls_destructor_in_order {V : Type} (fuel : Nat) (h : Heap V)
    (last : Nat) (L : List Nat) (hR : Ring h last L) (hf : L.length < fuel) :
    ∃ h', clist_destroy fuel h last = .ok (h', 0) ∧ Ring h' 0 [] ∧
      h'.log = h.log ++ values h L ∧ (L = [] → h' = h) :=
  destroy_spec L fuel h last hR hf

theorem destroy_calls_destructor_in_order_witness :
    Ring demoHeap 3 [1, 2, 3] ∧ ([1, 2, 3] : List Nat).length < 4 ∧
    ∃ h', clist_destroy 4 demoHeap 3 = .ok (h', 0) ∧ Ring h' 0 [] ∧
      h'.log = demoHeap.log ++ values demoHeap [1, 2, 3] ∧
      (([1, 2, 3] : List Nat) = [] → h' = demoHeap) :=
  ⟨demoHeap_ring, by decide,
   destroy_calls_destructor_in_order 4 demoHeap 3 [1, 2, 3] demoHeap_ring (by decide)⟩

theorem nodeAt_end {V : Type} {h : Heap V} {last : Nat} {L : List Nat} (hR : Ring h last L) :
    ∀ (S A : List Nat), L = A ++ S → nodeAt h last S.length (S.headD 0) = .ok 0 := by
  intro S
  induction S with
  | nil => intro A _; simp [nodeAt]
  | cons x S ih =>
    intro A hL
    have hR' := hR
    rw [hL] at hR'
    have hn := clist_next_ring hR'
    simp only [List.length_cons, nodeAt, List.headD_cons, hn, bind_ok]
    exact ih (A ++ [x]) (by simp [hL])

theorem iterAt_ring {V : Type} {h : Heap V} {last : Nat} {L : List Nat} (hR : Ring h last L) :
    (∀ i pos, L[i]? = some pos → iterAt h last i = .ok pos) ∧
    iterAt h last L.length = .ok 0 := by
  refine ⟨?_, ?_⟩
  · intro i pos hi
    simp only [iterAt, clist_begin_ring hR, bind_ok]
    exact nodeAt_ring hR i [] L (by simp) hi
  · simp only [iterAt, clist_begin_ring hR, bind_ok]
    exact nodeAt_end hR L [] (by simp)

/-- C17: on a well-formed list of `n` nodes, `begin` followed by `i` calls of `next`
gives, for `i < n`, the node at index `i` of the front-to-back order (a node, never the
end marker), and for `i = n` the end marker; the nodes are distinct, so each is visited
exactly once; `begin` is the end marker on the empty list and `last->next` otherwise,
`next` at the back is the end marker, and collecting the nodes from `begin` until the
end marker returns the `n` nodes in order. -/
theorem iteration_visits_each_node_once {V : Type} (h : Heap V) (last : Nat)
    (L : List Nat) (hR : Ring h last L) :
    (∀ i pos, L[i]? = some pos → iterAt h last i = .ok pos ∧ pos ≠ 0) ∧
    iterAt h last L.length = .ok 0 ∧
    L.Nodup ∧
    (L = [] → clist_begin h last = .ok 0) ∧
    (L ≠ [] → clist_begin h last = .ok (h.next last) ∧ L[0]? = some (h.next last)) ∧
    clist_next h last last = .ok 0 ∧
    clist_nodes (L.length + 1) h last = .ok L := by
  obtain ⟨h1, h2⟩ := iterAt_ring hR
  refine ⟨?_, h2, hR.1, ?_, ?_, ?_, ?_⟩
  · intro i pos hi
    exact ⟨h1 i pos hi, (hR.2.1 pos (List.getElem?_mem hi)).1⟩
  · intro hL
    rw [clist_begin_ring hR, hL]; rfl
  · intro hne
    have hfront := hR.2.2.2.2 hne
    rw [clist_begin_ring hR, hfront]
    refine ⟨rfl, ?_⟩
    cases L with
    | nil => exact absurd rfl hne
    | cons a L => simp
  · simp [clist_next]
  · exact clist_nodes_ring hR (by omega)

theorem iteration_visits_each_node_once_witness :
    Ring demoHeap 3 [1, 2, 3] ∧
    ((∀ i pos, ([1, 2, 3] : List Nat)[i]? = some pos →
      iterAt demoHeap 3 i = .ok pos ∧ pos ≠ 0) ∧
    iterAt demoHeap 3 ([1, 2, 3] : List Nat).length = .ok 0 ∧
    ([1, 2, 3] : List Nat).Nodup ∧
    (([1, 2, 3] : List Nat) = [] → clist_begin demoHeap 3 = .ok 0) ∧
    (([1, 2, 3] : List Nat) ≠ [] → clist_begin demoHeap 3 = .ok (demoHeap.next 3) ∧
      ([1, 2, 3] : List Nat)[0]? = some (demoHeap.next 3)) ∧
    clist_next demoHeap 3 3 = .ok 0 ∧
    clist_nodes (([1, 2, 3] : List Nat).length + 1) demoHeap 3 = .ok [1, 2, 3]) :=
  ⟨demoHeap_ring, iteration_visits_each_node_once demoHeap 3 [1, 2, 3] demoHeap_ring⟩

theorem demoHeap2_ring : Ring demoHeap2 3 [1, 2, 3] := by
  refine ⟨by decide, by decide, ?_, by decide, by decide⟩
  simp [demoHeap2]

/-- The traversal index of the node before the front-most match: a function of the
lengths before and after the match only. -/
theorem Ring.pred_index {V : Type} {h : Heap V} {last : Nat} {S1 S2 : List Nat} {m : Nat}
    (hR : Ring h last (S1 ++ m :: S2)) :
    (S1 ++ m :: S2)[if S1.length = 0 then S2.length else S1.length - 1]? =
      some (S1.getLast?.getD last) := by
  rcases List.eq_nil_or_concat S1 with rfl | ⟨S1', b, hS1⟩
  · have hl := getLast?_eq_of_ring hR (by simp)
    simp only [List.nil_append] at hl ⊢
    rw [List.getLast?_eq_getElem?] at hl
    simpa using hl
  · rw [List.concat_eq_append] at hS1
    subst hS1
    have e : (S1' ++ [b] ++ m :: S2)[S1'.length]? = some b := by
      rw [List.append_assoc, List.getElem?_append_right (le_refl _)]
      simp
    have hl : (S1' ++ [b]).length - 1 = S1'.length := by simp
    have h0 : ¬ (S1' ++ [b]).length = 0 := by simp
    rw [if_neg h0, hl, List.getLast?_concat]
    exact e

theorem eraseIdx_split {α : Type} (S1 S2 : List α) (m : α) :
    (S1 ++ m :: S2).eraseIdx S1.length = S1 ++ S2 := by
  rw [List.eraseIdx_append_of_length_le (le_refl _)]
  simp

/-- Lists of equal length whose elements agree index by index on a predicate split at
the same index at the first element satisfying it. -/
theorem first_match_aligned {p q : Nat → Prop} {L1 L2 : List Nat}
    (hlen : L1.length = L2.length)
    (hpq : ∀ (i : Nat) (x y : Nat), L1[i]? = some x → L2[i]? = some y → (p x ↔ q y))
    {S1 S2 : List Nat} {m : Nat} (hL : L1 = S1 ++ m :: S2) (hno : ∀ x ∈ S1, ¬ p x)
    (hm : p m) :
    ∃ T1 m2 T2, L2 = T1 ++ m2 :: T2 ∧ T1.length = S1.length ∧ T2.length = S2.length ∧
      (∀ y ∈ T1, ¬ q y) ∧ q m2 := by
  have hj : S1.length < L2.length := by rw [← hlen, hL]; simp
  obtain ⟨T1, T2, hL2, hT1⟩ := split_at_index L2 S1.length (L2[S1.length])
    (List.getElem?_eq_getElem hj)
  have hn : L2.length = T1.length + 1 + T2.length := by
    conv_lhs => rw [hL2]
    simp; omega
  have hn1 : L1.length = S1.length + 1 + S2.length := by rw [hL]; simp; omega
  refine ⟨T1, _, T2, hL2, hT1, by omega, ?_, ?_⟩
  · intro y hy hq
    obtain ⟨i, hi, hget⟩ := List.getElem_of_mem hy
    have hi1 : i < S1.length := by omega
    have e2 : L2[i]? = some y := by
      rw [hL2, List.getElem?_append_left hi, List.getElem?_eq_getElem hi, hget]
    have e1 : L1[i]? = some S1[i] := by
      rw [hL, List.getElem?_append_left hi1, List.getElem?_eq_getElem hi1]
    exact hno _ (List.getElem_mem _) ((hpq i _ _ e1 e2).2 hq)
  · have e2 : L2[S1.length]? = some L2[S1.length] := List.getElem?_eq_getElem hj
    have e1 : L1[S1.length]? = some m := by
      rw [hL, List.getElem?_append_right (le_refl _)]; simp
    exact (hpq _ _ _ e1 e2).1 hm

/-- Two rings of equal length whose nodes match a key at the same indices: `find_before`
and `remove` act at the same index on both. -/
theorem search_aligned {V R : Type} (valueGetRaw : V → R)
    (valueCompareRaw : R → R → Int) (fuel : Nat) (h1 h2 : Heap V) (l1 l2 : Nat)
    (L1 L2 : List Nat) (key : R)
    (hR1 : Ring h1 l1 L1) (hR2 : Ring h2 l2 L2) (hlen : L1.length = L2.length)
    (hpq : ∀ (i : Nat) (x y : Nat), L1[i]? = some x → L2[i]? = some y →
      (valueCompareRaw (valueGetRaw (h1.value x)) key = 0 ↔
        valueCompareRaw (valueGetRaw (h2.value y)) key = 0))
    (hf : L1.length < fuel) :
    (∃ it1 it2, clist_findBefore valueGetRaw valueCompareRaw fuel h1 l1 key = .ok it1 ∧
      clist_findBefore valueGetRaw valueCompareRaw fuel h2 l2 key = .ok it2 ∧
      ((it1 = 0 ∧ it2 = 0) ∨ ∃ k : Nat, L1[k]? = some it1 ∧ L2[k]? = some it2)) ∧
    (∃ h1' l1' r1 h2' l2' r2,
      clist_remove valueGetRaw valueCompareRaw fuel h1 l1 key = .ok (h1', l1', r1) ∧
      clist_remove valueGetRaw valueCompareRaw fuel h2 l2 key = .ok (h2', l2', r2) ∧
      ((r1 = 0 ∧ r2 = 0 ∧ h1' = h1 ∧ l1' = l1 ∧ h2' = h2 ∧ l2' = l2) ∨
        ∃ j, j < L1.length ∧ r1 ≠ 0 ∧ r2 ≠ 0 ∧
          Ring h1' l1' (L1.eraseIdx j) ∧ Ring h2' l2' (L2.eraseIdx j) ∧
          values h1' (L1.eraseIdx j) = (values h1 L1).eraseIdx j ∧
          values h2' (L2.eraseIdx j) = (values h2 L2).eraseIdx j)) := by
  have hf2 : L2.length < fuel := by omega
  by_cases hk : ∃ x ∈ L1, valueCompareRaw (valueGetRaw (h1.value x)) key = 0
  · obtain ⟨S1, m, S2, hL, hno, hm, _⟩ :=
      first_match_split valueGetRaw valueCompareRaw h1 key hk
    obtain ⟨T1, m2, T2, hL2, hT1, hT2, hno2, hm2⟩ :=
      first_match_aligned hlen hpq hL hno hm
    subst hL
    subst hL2
    have hf1 : S1.length < fuel := by simp at hf; omega
    have hf1' : T1.length < fuel := by omega
    have hp1 := hR1.pred_index
    have hp2 := hR2.pred_index
    rw [hT1, hT2] at hp2
    refine ⟨⟨_, _, findBefore_hit valueGetRaw valueCompareRaw hR1 key hf1 hm hno,
      findBefore_hit valueGetRaw valueCompareRaw hR2 key hf1' hm2 hno2,
      Or.inr ⟨_, hp1, hp2⟩⟩, ?_⟩
    obtain ⟨h1', l1', a1, a2, _, a4, a5, _⟩ :=
      remove_hit valueGetRaw valueCompareRaw hR1 key hf1 hm hno
    obtain ⟨h2', l2', b1, b2, _, b4, b5, _⟩ :=
      remove_hit valueGetRaw valueCompareRaw hR2 key hf1' hm2 hno2
    refine ⟨h1', l1', _, h2', l2', _, a1, b1, Or.inr ⟨S1.length, by simp, a2, b2, ?_, ?_,
      ?_, ?_⟩⟩
    · rw [eraseIdx_split]; exact a4
    · rw [← hT1, eraseIdx_split]; exact b4
    · rw [eraseIdx_split, a5, values, values, ← map_eraseIdx, eraseIdx_split]
    · rw [← hT1, eraseIdx_split, b5, values, values, ← map_eraseIdx, eraseIdx_split]
  · have hno : ∀ x ∈ L1, valueCompareRaw (valueGetRaw (h1.value x)) key ≠ 0 :=
      fun x hx e => hk ⟨x, hx, e⟩
    have hno2 : ∀ y ∈ L2, valueCompareRaw (valueGetRaw (h2.value y)) key ≠ 0 := by
      intro y hy e
      obtain ⟨i, hi, hget⟩ := List.getElem_of_mem hy
      have hi1 : i < L1.length := by omega
      have e2 : L2[i]? = some y := by rw [List.getElem?_eq_getElem hi, hget]
      have e1 : L1[i]? = some L1[i] := List.getElem?_eq_getElem hi1
      exact hno _ (List.getElem_mem _) ((hpq i _ _ e1 e2).2 e)
    refine ⟨⟨0, 0, findBefore_miss valueGetRaw valueCompareRaw hR1 key hf hno,
      findBefore_miss valueGetRaw valueCompareRaw hR2 key hf2 hno2, Or.inl ⟨rfl, rfl⟩⟩, ?_⟩
    obtain ⟨h1', l1', r1, a1, a2, a3, _⟩ :=
      remove_spec valueGetRaw valueCompareRaw fuel h1 l1 L1 key hR1 hf
    obtain ⟨h2', l2', r2, b1, b2, b3, _⟩ :=
      remove_spec valueGetRaw valueCompareRaw fuel h2 l2 L2 key hR2 hf2
    have hr1 : r1 = 0 := a2.2 hno
    have hr2 : r2 = 0 := b2.2 hno2
    obtain ⟨e1, e2⟩ := a3 hr1
    obtain ⟨e3, e4⟩ := b3 hr2
    exact ⟨h1', l1', r1, h2', l2', r2, a1, b1, Or.inl ⟨hr1, hr2, e1, e2, e3, e4⟩⟩


/-- C18: take two well-formed lists of the same length whose raw keys, index by index,
are equal, or compare equal under a raw comparator for which comparing equal is symmetric
and transitive (the stored values may differ). Then for every search key `find_before`
returns the end marker on both lists or nodes at the same traversal index, and `remove`
erases nothing on both or erases the node at the same index `j` on both. -/
theorem search_depends_on_raw_keys {V R : Type} (valueGetRaw : V → R)
    (valueCompareRaw : R → R → Int) (fuel : Nat) (h1 h2 : Heap V) (l1 l2 : Nat)
    (L1 L2 : List Nat) (key : R)
    (hR1 : Ring h1 l1 L1) (hR2 : Ring h2 l2 L2) (hlen : L1.length = L2.length)
    (hkeys : (∀ (i : Nat) (x y : Nat), L1[i]? = some x → L2[i]? = some y →
        valueGetRaw (h1.value x) = valueGetRaw (h2.value y)) ∨
      ((∀ a b, valueCompareRaw a b = 0 → valueCompareRaw b a = 0) ∧
        (∀ a b c, valueCompareRaw a b = 0 → valueCompareRaw b c = 0 →
          valueCompareRaw a c = 0) ∧
        ∀ (i : Nat) (x y : Nat), L1[i]? = some x → L2[i]? = some y →
          valueCompareRaw (valueGetRaw (h1.value x)) (valueGetRaw (h2.value y)) = 0))
    (hf : L1.length < fuel) :
    (∃ it1 it2, clist_findBefore valueGetRaw valueCompareRaw fuel h1 l1 key = .ok it1 ∧
      clist_findBefore valueGetRaw valueCompareRaw fuel h2 l2 key = .ok it2 ∧
      ((it1 = 0 ∧ it2 = 0) ∨ ∃ k : Nat, L1[k]? = some it1 ∧ L2[k]? = some it2)) ∧
    (∃ h1' l1' r1 h2' l2' r2,
      clist_remove valueGetRaw valueCompareRaw fuel h1 l1 key = .ok (h1', l1', r1) ∧
      clist_remove valueGetRaw valueCompareRaw fuel h2 l2 key = .ok (h2', l2', r2) ∧
      ((r1 = 0 ∧ r2 = 0 ∧ h1' = h1 ∧ l1' = l1 ∧ h2' = h2 ∧ l2' = l2) ∨
        ∃ j, j < L1.length ∧ r1 ≠ 0 ∧ r2 ≠ 0 ∧
          Ring h1' l1' (L1.eraseIdx j) ∧ Ring h2' l2' (L2.eraseIdx j) ∧
          values h1' (L1.eraseIdx j) = (values h1 L1).eraseIdx j ∧
          values h2' (L2.eraseIdx j) = (values h2 L2).eraseIdx j)) := by
  apply search_aligned valueGetRaw valueCompareRaw fuel h1 h2 l1 l2 L1 L2 key hR1 hR2 hlen
    ?_ hf
  intro i x y hx hy
  rcases hkeys with heq | ⟨hsymm, htrans, hcmp⟩
  · rw [heq i x y hx hy]
  · have e := hcmp i x y hx hy
    exact ⟨fun hk => htrans _ _ _ (hsymm _ _ e) hk, fun hk => htrans _ _ _ e hk⟩

theorem quarterCmp_zero (a b : Nat) : quarterCmp a b = 0 ↔ a / 4 = b / 4 := by
  simp only [quarterCmp, natCmp]
  omega

theorem search_depends_on_raw_keys_witness :
    Ring demoHeap 3 [1, 2, 3] ∧ Ring demoHeap2 3 [1, 2, 3] ∧
    ([1, 2, 3] : List Nat).length = ([1, 2, 3] : List Nat).length ∧
    ((∀ (i : Nat) (x y : Nat), ([1, 2, 3] : List Nat)[i]? = some x →
        ([1, 2, 3] : List Nat)[i]? = some y →
        (fun v : Nat => v) (demoHeap.value x) = (fun v : Nat => v) (demoHeap2.value y)) ∨
      ((∀ a b, quarterCmp a b = 0 → quarterCmp b a = 0) ∧
        (∀ a b c, quarterCmp a b = 0 → quarterCmp b c = 0 → quarterCmp a c = 0) ∧
        ∀ (i : Nat) (x y : Nat), ([1, 2, 3] : List Nat)[i]? = some x →
          ([1, 2, 3] : List Nat)[i]? = some y →
          quarterCmp ((fun v : Nat => v) (demoHeap.value x))
            ((fun v : Nat => v) (demoHeap2.value y)) = 0)) ∧
    ([1, 2, 3] : List Nat).length < 4 ∧
    ((∃ it1 it2, clist_findBefore (fun v : Nat => v) quarterCmp 4 demoHeap 3 1 = .ok it1 ∧
      clist_findBefore (fun v : Nat => v) quarterCmp 4 demoHeap2 3 1 = .ok it2 ∧
      ((it1 = 0 ∧ it2 = 0) ∨
        ∃ k : Nat, ([1, 2, 3] : List Nat)[k]? = some it1 ∧ ([1, 2, 3] : List Nat)[k]? = some it2)) ∧
    (∃ h1' l1' r1 h2' l2' r2,
      clist_remove (fun v : Nat => v) quarterCmp 4 demoHeap 3 1 = .ok (h1', l1', r1) ∧
      clist_remove (fun v : Nat => v) quarterCmp 4 demoHeap2 3 1 = .ok (h2', l2', r2) ∧
      ((r1 = 0 ∧ r2 = 0 ∧ h1' = demoHeap ∧ l1' = 3 ∧ h2' = demoHeap2 ∧ l2' = 3) ∨
        ∃ j, j < ([1, 2, 3] : List Nat).length ∧ r1 ≠ 0 ∧ r2 ≠ 0 ∧
          Ring h1' l1' (([1, 2, 3] : List Nat).eraseIdx j) ∧
          Ring h2' l2' (([1, 2, 3] : List Nat).eraseIdx j) ∧
          values h1' (([1, 2, 3] : List Nat).eraseIdx j) =
            (values demoHeap [1, 2, 3]).eraseIdx j ∧
          values h2' (([1, 2, 3] : List Nat).eraseIdx j) =
            (values demoHeap2 [1, 2, 3]).eraseIdx j))) :=
  have hsymm : ∀ a b, quarterCmp a b = 0 → quarterCmp b a = 0 := by
    intro a b; simp only [quarterCmp_zero]; omega
  have htrans : ∀ a b c, quarterCmp a b = 0 → quarterCmp b c = 0 → quarterCmp a c = 0 := by
    intro a b c; simp only [quarterCmp_zero]; omega
  have hkeys : ∀ (i : Nat) (x y : Nat), ([1, 2, 3] : List Nat)[i]? = some x →
      ([1, 2, 3] : List Nat)[i]? = some y →
      quarterCmp ((fun v : Nat => v) (demoHeap.value x))
        ((fun v : Nat => v) (demoHeap2.value y)) = 0 := by
    intro i x y hx hy
    rcases i with _ | _ | _ | i
    · simp at hx hy; subst hx; subst hy; decide
    · simp at hx hy; subst hx; subst hy; decide
    · simp at hx hy; subst hx; subst hy; decide
    · simp at hx
  ⟨demoHeap_ring, demoHeap2_ring, rfl, Or.inr ⟨hsymm, htrans, hkeys⟩, by decide,
   search_depends_on_raw_keys (fun v : Nat => v) quarterCmp 4 demoHeap demoHeap2 3 3
     [1, 2, 3] [1, 2, 3] 1 demoHeap_ring demoHeap2_ring rfl
     (Or.inr ⟨hsymm, htrans, hkeys⟩) (by decide)⟩

/-- The loop `while (1)` of the engine is a pass followed by the exit test
`nmerges <= 1` and, when it fails, `insize *= 2` and the loop again. -/
theorem sortLoop_unfold {V : Type} (cmp : Heap V → Nat → Nat → Except Err Int)
    (fuel k : Nat) (h : Heap V) (list insize : Nat) :
    sortLoop cmp fuel (k + 1) h list insize =
      (passOnce cmp fuel h list insize >>= fun r =>
        if r.2.2.2 ≤ 1 then pure (r.1, r.2.2.1)
        else intOf (insize * 2) >>= fun i2 => sortLoop cmp fuel k r.1 r.2.1 i2) := by
  cases hp : passLoop cmp insize list fuel
      { h := h, p := list, q := 0, list := 0, tail := 0, psize := 0, qsize := 0,
        nmerges := 0 } with
  | error e => simp only [sortLoop, passOnce, hp, bind_error]
  | ok s =>
    cases hw : s.h.wrNext s.tail s.list with
    | error e => simp only [sortLoop, passOnce, hp, bind_ok, hw, bind_error]
    | ok h1 => simp only [sortLoop, passOnce, hp, bind_ok, hw, pure_eq_ok]

/-- Where the bound on the size matters: when a pass at a run length above `INT_MAX / 2`
ends with more than one merge, `insize *= 2` overflows. -/
theorem sortLoop_overflow {V : Type} (cmp : Heap V → Nat → Nat → Except Err Int)
    (fuel k : Nat) (h : Heap V) (list insize : Nat) (r : Heap V × Nat × Nat × Nat)
    (hp : passOnce cmp fuel h list insize = .ok r) (hnm : 1 < r.2.2.2)
    (hbig : INT_MAX < insize * 2) :
    sortLoop cmp fuel (k + 1) h list insize = .error .overflow := by
  have h1 : ¬ r.2.2.2 ≤ 1 := by omega
  have h2 : ¬ insize * 2 ≤ INT_MAX := by omega
  rw [sortLoop_unfold, hp]
  simp only [bind_ok, h1, if_false, intOf, h2, bind_error]

theorem Runs.map {α β : Type} (f : α → β) {le : β → β → Bool} {s : Nat} {L : List α}
    (h : Runs (fun a b => le (f a) (f b)) s L) : Runs le s (L.map f) := by
  induction h with
  | nil => exact Runs.nil
  | cons run rest h1 h2 h3 _ ih =>
    rw [List.map_append]
    exact Runs.cons (run.map f) (rest.map f) (by simpa using h1) (by simpa using h2)
      (List.pairwise_map.2 h3) ih

/-- Scenario: `destroy` of the list `[5, 3, 4]` records the destructor calls `5, 3, 4`
and leaves `last == NULL`. -/
theorem scenario_destroy :
    (do let (h, l) ← clist_destroy 4 demoHeap 3
        pure (h.log, l)).toOption = some ([5, 3, 4], 0) := by
  decide

/-- Scenario: the iterators of the list with nodes `1, 2, 3` are `1, 2, 3` and then the
end marker. -/
theorem scenario_iterate :
    ((List.range 4).map (fun i => (iterAt demoHeap 3 i).toOption)) =
      [some 1, some 2, some 3, some 0] := by
  decide

set_option maxRecDepth 4000 in
set_option maxHeartbeats 4000000 in
/-- Scenario: on the list `[5, 3, 4]` (nodes `1, 2, 3`) the pass at run length `1` makes
two merges and leaves the values `3, 5, 4`; the pass at run length `2` makes one merge and
leaves `3, 4, 5`. -/
theorem scenario_passes :
    (do let (insize, h, _, tail, nmerges) ←
          passAt (clist_sortCompare id natCmp) 4 0 demoHeap 1
        let t ← clist_toList 4 h tail
        pure (insize, t, nmerges)).toOption = some (1, [3, 5, 4], 2) ∧
    (do let (insize, h, _, tail, nmerges) ←
          passAt (clist_sortCompare id natCmp) 4 1 demoHeap 1
        let t ← clist_toList 4 h tail
        pure (insize, t, nmerges)).toOption = some (2, [3, 4, 5], 1) := by
  constructor <;> decide

end STC
